import Mathlib

/-!
# Fadecandy firmware: low-level pixel update (`firmware/fc_pixel.cpp`)

A shallow embedding of `lutInterpolate` and `updatePixel`, followed by the
properties of the calibration interpolator, the temporal blend, the
saturating round and the residual (error diffusion) feedback.

Conventions of the embedding
* `uint32_t` / `unsigned` values are `Nat`, every arithmetic result is reduced
  with `u32` (modulo `2 ^ 32`), exactly where the C expression is evaluated in
  unsigned arithmetic;
* `int` values are `Int`; the conversions between `int` and `uint32_t` that
  the C code performs implicitly are the explicit `toInt` and `toU32`;
* an array read is a `List` lookup returning `Option`, so a read outside the
  table makes the whole function return `none`;
* the residual slot is passed in and returned (explicit state passing).
-/

namespace Fadecandy

/-! ## Machine integers -/

/-- Reduction of a natural number to the range of `uint32_t`. -/
def u32 (n : Nat) : Nat := n % 4294967296

/-- Conversion of a `uint32_t` value to `int` (two's complement, 32 bit). -/
def toInt (n : Nat) : Int :=
  if n % 4294967296 < 2147483648 then ((n % 4294967296 : Nat) : Int)
  else ((n % 4294967296 : Nat) : Int) - 4294967296

/-- Conversion of an `int` value to `uint32_t` (reduction modulo `2 ^ 32`). -/
def toU32 (i : Int) : Nat := (i % 4294967296).toNat

/-- Modelled from the spec: the type `residual_t` is not declared in
`fc_pixel.cpp`; the residual state is "three signed 16-bit values". This is
the conversion performed by a store of an `int` into such a slot: the value is
reduced modulo `2 ^ 16` into `[-32768, 32767]`. -/
def toResidual (i : Int) : Int := (i + 32768) % 65536 - 32768

/-- Modelled from the spec: `__USAT(val, sat)` is the saturation intrinsic of
the target core, not defined in `fc_pixel.cpp`: "clamp a signed intermediate
value into an unsigned N-bit range without modular wraparound". The result is
an unsigned value in `[0, 2 ^ sat - 1]`. -/
def __USAT (val : Int) (sat : Nat) : Nat :=
  if val < 0 then 0
  else if val > (2 : Int) ^ sat - 1 then 2 ^ sat - 1
  else val.toNat

/-! ## Data model -/

/-- One colour channel; the source indexes channels as 0 (red), 1 (green),
2 (blue). -/
inductive Chan where
  | red
  | green
  | blue
  deriving DecidableEq, Repr

/-- A source pixel `const uint8_t *pixel`: the bytes `pixel[0]`, `pixel[1]`,
`pixel[2]`. -/
structure Pixel where
  c0 : Nat
  c1 : Nat
  c2 : Nat
  deriving DecidableEq, Repr

/-- The residual slot `residual_t *pResidual`: `pResidual[0..2]`. -/
structure Residual where
  c0 : Int
  c1 : Int
  c2 : Int
  deriving DecidableEq, Repr

/-- The current colour look-up tables `buffers.lutCurrent`, one array of
`uint16_t` per channel. -/
structure LutCurrent where
  r : List Nat
  g : List Nat
  b : List Nat
  deriving DecidableEq, Repr

/-! ## The source functions -/

/-- Source function `lutInterpolate(lut, arg)`, lines 26-45: the entries
`lut[index]` and `lut[index + 1]` are read and combined in `uint32_t`
arithmetic; `0x100 - alpha` is an unsigned subtraction, written here modulo
`2 ^ 32`. -/
def lutInterpolate (lut : List Nat) (arg : Nat) : Option Nat :=
  let index := arg >>> 8
  let alpha := arg &&& 0xFF
  let invAlpha := u32 (0x100 + 4294967296 - alpha)
  match lut[index]?, lut[index + 1]? with
  | some lo, some hi => some (u32 (u32 (lo * invAlpha) + u32 (hi * alpha)) >>> 8)
  | _, _ => none

/-- The values of the local variables of `updatePixel` after line 92: the
three intensities with the residual incorporated and the three output bytes.
The bytes are the `uint32_t` results of `__USAT(..) >> 8`; they are below
`2 ^ 24`, so their conversion to `int` keeps the value and they are kept as
natural numbers. -/
structure Locals where
  iR : Int
  iG : Int
  iB : Int
  r8 : Nat
  g8 : Nat
  b8 : Nat
  deriving DecidableEq, Repr

/-- The expression of lines 64-66 for one channel:
`(pixelPrev[c] * icPrev + pixelNext[c] * icNext) >> 16`, evaluated in
`uint32_t` and stored in an `int`. -/
def blend (icPrev icNext prev next : Nat) : Int :=
  toInt (u32 (u32 (prev * icPrev) + u32 (next * icNext)) >>> 16)

/-- Lines 64-92 of `updatePixel`: frame interpolation, look-up table,
residual and saturating round. -/
def updatePixelLocals (lutCurrent : LutCurrent) (icPrev icNext : Nat)
    (pixelPrev pixelNext : Pixel) (pResidual : Residual) : Option Locals := do
  let iR := blend icPrev icNext pixelPrev.c0 pixelNext.c0
  let iG := blend icPrev icNext pixelPrev.c1 pixelNext.c1
  let iB := blend icPrev icNext pixelPrev.c2 pixelNext.c2
  let iR := toInt (← lutInterpolate lutCurrent.r (toU32 iR))
  let iG := toInt (← lutInterpolate lutCurrent.g (toU32 iG))
  let iB := toInt (← lutInterpolate lutCurrent.b (toU32 iB))
  let iR := iR + pResidual.c0
  let iG := iG + pResidual.c1
  let iB := iB + pResidual.c2
  let r8 := __USAT (iR + 0x80) 16 >>> 8
  let g8 := __USAT (iG + 0x80) 16 >>> 8
  let b8 := __USAT (iB + 0x80) 16 >>> 8
  pure { iR := iR, iG := iG, iB := iB, r8 := r8, g8 := g8, b8 := b8 }

/-- Source function `updatePixel(icPrev, icNext, pixelPrev, pixelNext, pResidual)`,
lines 47-101: the returned word and the residual slot after the call. -/
def updatePixel (lutCurrent : LutCurrent) (icPrev icNext : Nat)
    (pixelPrev pixelNext : Pixel) (pResidual : Residual) : Option (Nat × Residual) := do
  let l ← updatePixelLocals lutCurrent icPrev icNext pixelPrev pixelNext pResidual
  let pResidual : Residual :=
    { c0 := toResidual (l.iR - (l.r8 : Int) * 257)
      c1 := toResidual (l.iG - (l.g8 : Int) * 257)
      c2 := toResidual (l.iB - (l.b8 : Int) * 257) }
  pure (u32 ((l.g8 <<< 16) ||| (l.r8 <<< 8) ||| l.b8), pResidual)


/-! ## Channel selectors and validity of the inputs -/

/-- The byte of channel `c` of a source pixel. -/
def Pixel.get (p : Pixel) : Chan → Nat
  | .red => p.c0
  | .green => p.c1
  | .blue => p.c2

/-- The residual of channel `c`. -/
def Residual.get (r : Residual) : Chan → Int
  | .red => r.c0
  | .green => r.c1
  | .blue => r.c2

/-- The table of channel `c`. -/
def LutCurrent.get (t : LutCurrent) : Chan → List Nat
  | .red => t.r
  | .green => t.g
  | .blue => t.b

/-- The intensity of channel `c` after line 77 (residual incorporated). -/
def Locals.intensity (l : Locals) : Chan → Int
  | .red => l.iR
  | .green => l.iG
  | .blue => l.iB

/-- The output byte of channel `c` (lines 90-92). -/
def Locals.byte (l : Locals) : Chan → Nat
  | .red => l.r8
  | .green => l.g8
  | .blue => l.b8

/-- A table of 257 entries of type `uint16_t`. -/
def ValidLut (lut : List Nat) : Prop := lut.length = 257 ∧ ∀ v ∈ lut, v < 65536

instance (lut : List Nat) : Decidable (ValidLut lut) := by
  unfold ValidLut; exact inferInstance

/-- Three tables of 257 entries of type `uint16_t`. -/
def ValidLuts (t : LutCurrent) : Prop := ValidLut t.r ∧ ValidLut t.g ∧ ValidLut t.b

instance (t : LutCurrent) : Decidable (ValidLuts t) := by
  unfold ValidLuts; exact inferInstance

/-- The source bytes are of type `uint8_t`. -/
def ValidPixel (p : Pixel) : Prop := p.c0 < 256 ∧ p.c1 < 256 ∧ p.c2 < 256

instance (p : Pixel) : Decidable (ValidPixel p) := by
  unfold ValidPixel; exact inferInstance

/-- The contract on the weights stated at lines 57-59: both are `uint32_t`
values and `icPrev + icNext = 0x1010000`. -/
def ValidWeights (icPrev icNext : Nat) : Prop := icPrev + icNext = 0x1010000

instance (a b : Nat) : Decidable (ValidWeights a b) := by
  unfold ValidWeights; exact inferInstance

/-- The residual slot holds three signed 16-bit values. -/
def ValidResidual (r : Residual) : Prop :=
  (-32768 ≤ r.c0 ∧ r.c0 ≤ 32767) ∧ (-32768 ≤ r.c1 ∧ r.c1 ≤ 32767) ∧
    (-32768 ≤ r.c2 ∧ r.c2 ≤ 32767)

instance (r : Residual) : Decidable (ValidResidual r) := by
  unfold ValidResidual; exact inferInstance

/-! ## Calibrated intensity, packed word and repeated updates -/

/-- The calibrated intensity of channel `c` (lines 64-72): the blend of the
two source bytes passed through the table of the channel. -/
def calibrated (lutCurrent : LutCurrent) (icPrev icNext : Nat)
    (pixelPrev pixelNext : Pixel) (c : Chan) : Option Nat :=
  lutInterpolate (lutCurrent.get c)
    (toU32 (blend icPrev icNext (pixelPrev.get c) (pixelNext.get c)))

/-- The byte of channel `c` in a packed word: green is bits 16-23, red is
bits 8-15 and blue is bits 0-7. -/
def wordByte : Chan → Nat → Nat
  | .red, w => (w >>> 8) &&& 0xFF
  | .green, w => (w >>> 16) &&& 0xFF
  | .blue, w => w &&& 0xFF

/-- The inputs of one call of `updatePixel` other than the residual slot. -/
structure Frame where
  lutCurrent : LutCurrent
  icPrev : Nat
  icNext : Nat
  pixelPrev : Pixel
  pixelNext : Pixel
  deriving DecidableEq, Repr

/-- All inputs of the call respect their C types and the weight contract. -/
def ValidFrame (f : Frame) : Prop :=
  ValidLuts f.lutCurrent ∧ ValidWeights f.icPrev f.icNext ∧
    ValidPixel f.pixelPrev ∧ ValidPixel f.pixelNext

instance (f : Frame) : Decidable (ValidFrame f) := by
  unfold ValidFrame; exact inferInstance

/-- The calibrated intensity of channel `c` for the inputs of a call. -/
def Frame.calibrated (f : Frame) (c : Chan) : Option Nat :=
  Fadecandy.calibrated f.lutCurrent f.icPrev f.icNext f.pixelPrev f.pixelNext c

/-- One call of `updatePixel` with the inputs `f` on the residual slot. -/
def Frame.update (f : Frame) (res : Residual) : Option (Nat × Residual) :=
  updatePixel f.lutCurrent f.icPrev f.icNext f.pixelPrev f.pixelNext res

/-- Successive calls of `updatePixel` on one residual slot, one call per
element of the list: the words returned, in order, and the final slot. -/
def runPixel (res : Residual) : List Frame → Option (List Nat × Residual)
  | [] => some ([], res)
  | f :: fs =>
    match f.update res with
    | none => none
    | some (w, res1) =>
      match runPixel res1 fs with
      | none => none
      | some (ws, res2) => some (w :: ws, res2)

/-- The residual slot at pixel-slot creation. -/
def Residual.zero : Residual := { c0 := 0, c1 := 0, c2 := 0 }

/-- Sum of the output bytes of channel `c` in a list of returned words. -/
def byteSum (c : Chan) (ws : List Nat) : Nat := (ws.map (wordByte c)).sum

/-- Sum of the first `n` output bytes of channel `c` when `updatePixel` is
called repeatedly with the inputs `f`, starting from the zero residual. -/
def outputSum (f : Frame) (c : Chan) (n : Nat) : Nat :=
  match runPixel Residual.zero (List.replicate n f) with
  | some (ws, _) => byteSum c ws
  | none => 0

/-- Every channel of the residual slot is in `[-383, 127]`. -/
def TightResidual (r : Residual) : Prop := ∀ c : Chan, -383 ≤ r.get c ∧ r.get c ≤ 127

/-! ## Concrete inputs used to instantiate the theorems -/

/-- A non-decreasing table of 257 entries, `255 * i` at index `i`. -/
def rampLut : List Nat := (List.range 257).map (fun i => 255 * i)

/-- A table whose 257 entries all hold the value `v`. -/
def constLut (v : Nat) : List Nat := List.replicate 257 v

/-- Tables for the three channels: a ramp for red, constant tables for green
and blue. -/
def sampleLuts : LutCurrent := { r := rampLut, g := constLut 0xFE80, b := constLut 0 }

/-- A call half way between two frames. -/
def sampleFrame : Frame :=
  { lutCurrent := sampleLuts, icPrev := 0x808000, icNext := 0x808000
    pixelPrev := { c0 := 128, c1 := 0, c2 := 255 }
    pixelNext := { c0 := 129, c1 := 3, c2 := 9 } }

/-- A call that shows the previous frame only, on constant full-scale tables. -/
def fullFrame : Frame :=
  { lutCurrent := { r := constLut 0xFFFF, g := constLut 0xFFFF, b := rampLut }
    icPrev := 0x1010000, icNext := 0
    pixelPrev := { c0 := 255, c1 := 1, c2 := 77 }
    pixelNext := { c0 := 0, c1 := 200, c2 := 78 } }

/-- The table of the mid-point example: `256 * i` at every index `i ≤ 255`,
and `0xFFFF` in the last entry (`256 * 256` is not a `uint16_t` value). -/
def midLut : List Nat := (List.range 256).map (fun i => 256 * i) ++ [0xFFFF]

/-- The mid-point example: bytes 128 and 129 blended half way on `midLut`. -/
def midFrame : Frame :=
  { lutCurrent := { r := midLut, g := midLut, b := midLut }
    icPrev := 0x808000, icNext := 0x808000
    pixelPrev := { c0 := 128, c1 := 128, c2 := 128 }
    pixelNext := { c0 := 129, c1 := 129, c2 := 129 } }

/-- A call in which both frames show the grey level `p` on every channel,
with the tables `midLut` and the weights of the previous frame only. -/
def greyFrame (p : Nat) : Frame :=
  { lutCurrent := { r := midLut, g := midLut, b := midLut }
    icPrev := 0x1010000, icNext := 0
    pixelPrev := { c0 := p, c1 := p, c2 := p }
    pixelNext := { c0 := p, c1 := p, c2 := p } }

/-- A call on tables whose entries all hold `v`, so that the calibrated
intensity of every channel is `v`. -/
def constFrame (v : Nat) : Frame :=
  { lutCurrent := { r := constLut v, g := constLut v, b := constLut v }
    icPrev := 0x808000, icNext := 0x808000
    pixelPrev := { c0 := 10, c1 := 20, c2 := 30 }
    pixelNext := { c0 := 40, c1 := 50, c2 := 60 } }

/-- The table is non-decreasing: `table[i] ≤ table[i + 1]` for `i` in `0..255`. -/
def MonotoneLut (lut : List Nat) : Prop :=
  ∀ i, i < 256 → lut.getD i 0 ≤ lut.getD (i + 1) 0

instance (lut : List Nat) : Decidable (MonotoneLut lut) := by
  unfold MonotoneLut; exact inferInstance

/-! ## The calibration interpolator -/

theorem and_255 (n : Nat) : n &&& 0xFF = n % 256 :=
  Nat.and_pow_two_sub_one_eq_mod n 8

theorem shr_8 (n : Nat) : n >>> 8 = n / 256 :=
  Nat.shiftRight_eq_div_pow n 8

theorem shr_16 (n : Nat) : n >>> 16 = n / 65536 :=
  Nat.shiftRight_eq_div_pow n 16

theorem ValidLut.get_lo {lut : List Nat} (h : ValidLut lut) {i : Nat} (hi : i ≤ 256) :
    ∃ v, lut[i]? = some v ∧ v < 65536 := by
  have hlen : i < lut.length := by rw [h.1]; omega
  exact ⟨lut[i], List.getElem?_eq_getElem hlen, h.2 _ (List.getElem_mem hlen)⟩

/-- The weighted sum of two 16-bit entries stays below `2 ^ 24`. -/
theorem weighted_sum_lt {lo hi a : Nat} (hlo : lo < 65536) (hhi : hi < 65536) (ha : a < 256) :
    lo * (256 - a) + hi * a ≤ 65535 * 256 := by
  have h1 : lo * (256 - a) ≤ 65535 * (256 - a) := Nat.mul_le_mul_right _ (by omega)
  have h2 : hi * a ≤ 65535 * a := Nat.mul_le_mul_right _ (by omega)
  omega

/-- Value of `lutInterpolate` once the two entries it reads are known. -/
theorem lutInterpolate_of_entries {lut : List Nat} {arg lo hi : Nat}
    (hlo : lut[arg >>> 8]? = some lo) (hhi : lut[arg >>> 8 + 1]? = some hi)
    (hlo16 : lo < 65536) (hhi16 : hi < 65536) :
    lutInterpolate lut arg
      = some ((lo * (256 - arg % 256) + hi * (arg % 256)) / 256) := by
  have ha : arg % 256 < 256 := Nat.mod_lt _ (by decide)
  have hs := weighted_sum_lt hlo16 hhi16 ha
  have h1 : lo * (256 - arg % 256) ≤ 65535 * 256 := by omega
  have h2 : hi * (arg % 256) ≤ 65535 * 256 := by omega
  have e1 : u32 (0x100 + 4294967296 - arg % 256) = 256 - arg % 256 := by
    unfold u32; omega
  have e2 : ∀ n, n < 4294967296 → u32 n = n := fun n hn => Nat.mod_eq_of_lt hn
  unfold lutInterpolate
  simp only [hlo, hhi, and_255, e1]
  rw [e2 _ (by omega : lo * (256 - arg % 256) < 4294967296),
    e2 _ (by omega : hi * (arg % 256) < 4294967296), e2 _ (by omega), shr_8]

/-- Value of `lutInterpolate` on a valid table. -/
theorem lutInterpolate_valid {lut : List Nat} (h : ValidLut lut) {arg : Nat}
    (harg : arg ≤ 0xFFFF) :
    ∃ lo hi, lut[arg >>> 8]? = some lo ∧ lut[arg >>> 8 + 1]? = some hi ∧
      lo < 65536 ∧ hi < 65536 ∧
      lutInterpolate lut arg
        = some ((lo * (256 - arg % 256) + hi * (arg % 256)) / 256) := by
  have hi8 : arg >>> 8 ≤ 255 := by rw [shr_8]; omega
  obtain ⟨lo, hlo, hlo16⟩ := h.get_lo (by omega : arg >>> 8 ≤ 256)
  obtain ⟨hi, hhi, hhi16⟩ := h.get_lo (by omega : arg >>> 8 + 1 ≤ 256)
  exact ⟨lo, hi, hlo, hhi, hlo16, hhi16, lutInterpolate_of_entries hlo hhi hlo16 hhi16⟩

/-- On a valid table the interpolator returns a 16-bit value. -/
theorem lutInterpolate_some_le {lut : List Nat} (h : ValidLut lut) {arg : Nat}
    (harg : arg ≤ 0xFFFF) : ∃ v, lutInterpolate lut arg = some v ∧ v ≤ 0xFFFF := by
  obtain ⟨lo, hi, -, -, hlo16, hhi16, hv⟩ := lutInterpolate_valid h harg
  refine ⟨_, hv, ?_⟩
  have hs := weighted_sum_lt hlo16 hhi16 (Nat.mod_lt arg (by decide : 0 < 256))
  omega

/-! ## Conversions and saturation -/

theorem toInt_of_lt {n : Nat} (h : n < 2147483648) : toInt n = (n : Int) := by
  unfold toInt
  rw [Nat.mod_eq_of_lt (by omega : n < 4294967296), if_pos h]

theorem toU32_natCast {n : Nat} (h : n < 4294967296) : toU32 (n : Int) = n := by
  unfold toU32
  omega

theorem toResidual_of_range {i : Int} (h1 : -32768 ≤ i) (h2 : i ≤ 32767) :
    toResidual i = i := by
  unfold toResidual
  omega

theorem toResidual_range (i : Int) : -32768 ≤ toResidual i ∧ toResidual i ≤ 32767 := by
  unfold toResidual
  omega

/-- The three cases of the 16-bit unsigned saturation. -/
theorem usat_cases (x : Int) :
    (x < 0 ∧ __USAT x 16 = 0) ∨ (65535 < x ∧ __USAT x 16 = 65535) ∨
      (0 ≤ x ∧ x ≤ 65535 ∧ ((__USAT x 16 : Nat) : Int) = x) := by
  unfold __USAT
  norm_num
  split_ifs <;> omega

theorem usat_le (x : Int) : __USAT x 16 ≤ 65535 := by
  rcases usat_cases x with ⟨-, h⟩ | ⟨-, h⟩ | ⟨-, h1, h⟩ <;> omega

/-! ## The temporal blend -/

/-- The blend is the 16 upper bits of a 32-bit sum, a value below `2 ^ 16`. -/
theorem blend_eq (icPrev icNext prev next : Nat) :
    blend icPrev icNext prev next
      = (((prev * icPrev + next * icNext) % 4294967296 / 65536 : Nat) : Int) := by
  unfold blend
  rw [shr_16]
  have h : u32 (u32 (prev * icPrev) + u32 (next * icNext))
      = (prev * icPrev + next * icNext) % 4294967296 := by
    unfold u32
    omega
  rw [h]
  exact toInt_of_lt (by omega)

theorem toU32_blend (icPrev icNext prev next : Nat) :
    toU32 (blend icPrev icNext prev next)
      = (prev * icPrev + next * icNext) % 4294967296 / 65536 := by
  rw [blend_eq]
  exact toU32_natCast (by omega)

theorem toU32_blend_le (icPrev icNext prev next : Nat) :
    toU32 (blend icPrev icNext prev next) ≤ 0xFFFF := by
  rw [toU32_blend]
  omega

/-- On valid tables every channel has a calibrated intensity, a 16-bit value. -/
theorem calibrated_some_le {t : LutCurrent} (ht : ValidLuts t) (icPrev icNext : Nat)
    (pp pn : Pixel) (c : Chan) :
    ∃ v, calibrated t icPrev icNext pp pn c = some v ∧ v ≤ 0xFFFF := by
  have hc : ValidLut (t.get c) := by
    cases c
    · exact ht.1
    · exact ht.2.1
    · exact ht.2.2
  exact lutInterpolate_some_le hc (toU32_blend_le _ _ _ _)

/-! ## Packing -/

theorem pack_eq {g r b : Nat} (hr : r < 256) (hb : b < 256) :
    (g <<< 16) ||| (r <<< 8) ||| b = g * 65536 + r * 256 + b := by
  have h1 : g <<< 16 ||| r <<< 8 = 2 ^ 16 * g + 2 ^ 8 * r := by
    rw [Nat.shiftLeft_eq, Nat.shiftLeft_eq, Nat.mul_comm g, Nat.mul_comm r]
    exact (Nat.mul_add_lt_is_or (by omega) g).symm
  rw [h1]
  have h2 : 2 ^ 16 * g + 2 ^ 8 * r = 2 ^ 8 * (2 ^ 8 * g + r) := by ring
  rw [h2, ← Nat.mul_add_lt_is_or (by omega : b < 2 ^ 8)]
  ring

/-- The bytes of the packed word are the three output bytes. -/
theorem wordByte_pack {g r b : Nat} (hg : g < 256) (hr : r < 256) (hb : b < 256) :
    wordByte .red (u32 ((g <<< 16) ||| (r <<< 8) ||| b)) = r ∧
      wordByte .green (u32 ((g <<< 16) ||| (r <<< 8) ||| b)) = g ∧
      wordByte .blue (u32 ((g <<< 16) ||| (r <<< 8) ||| b)) = b := by
  rw [pack_eq hr hb]
  simp only [wordByte, u32, and_255, shr_8, shr_16]
  omega

/-! ## One call of `updatePixel` -/

/-- The output byte is at most 255. -/
theorem round_byte_le (x : Int) : __USAT (x + 0x80) 16 >>> 8 ≤ 255 := by
  have h := usat_le (x + 0x80)
  rw [shr_8]
  omega

/-- The error left by the rounding of a calibrated intensity plus a 16-bit
residual is itself a signed 16-bit value. -/
theorem round_error_range {v : Nat} {r : Int} (hv : v ≤ 0xFFFF)
    (h1 : -32768 ≤ r) (h2 : r ≤ 32767) :
    -32768 ≤ (v : Int) + r - 257 * ((__USAT ((v : Int) + r + 0x80) 16 >>> 8 : Nat) : Int) ∧
      (v : Int) + r - 257 * ((__USAT ((v : Int) + r + 0x80) 16 >>> 8 : Nat) : Int) ≤ 32767 := by
  rw [shr_8]
  rcases usat_cases ((v : Int) + r + 0x80) with ⟨h3, h⟩ | ⟨h3, h⟩ | ⟨h3, h4, h⟩
  · rw [h]; omega
  · rw [h]; omega
  · omega

/-- The error left by the rounding stays in `[-383, 127]` when the residual
that was incorporated is in `[-383, 127]`. -/
theorem round_error_tight {v : Nat} {r : Int} (hv : v ≤ 0xFFFF)
    (h1 : -383 ≤ r) (h2 : r ≤ 127) :
    -383 ≤ (v : Int) + r - 257 * ((__USAT ((v : Int) + r + 0x80) 16 >>> 8 : Nat) : Int) ∧
      (v : Int) + r - 257 * ((__USAT ((v : Int) + r + 0x80) 16 >>> 8 : Nat) : Int) ≤ 127 := by
  rw [shr_8]
  rcases usat_cases ((v : Int) + r + 0x80) with ⟨h3, h⟩ | ⟨h3, h⟩ | ⟨h3, h4, h⟩
  · rw [h]; omega
  · rw [h]; omega
  · omega

/-- The local variables of `updatePixel` in terms of the three calibrated
intensities. -/
theorem updatePixelLocals_of_calibrated {t : LutCurrent} {icPrev icNext : Nat}
    {pp pn : Pixel} {vR vG vB : Nat} (res : Residual)
    (hR : calibrated t icPrev icNext pp pn .red = some vR)
    (hG : calibrated t icPrev icNext pp pn .green = some vG)
    (hB : calibrated t icPrev icNext pp pn .blue = some vB) :
    updatePixelLocals t icPrev icNext pp pn res
      = some { iR := toInt vR + res.c0, iG := toInt vG + res.c1, iB := toInt vB + res.c2
               r8 := __USAT (toInt vR + res.c0 + 0x80) 16 >>> 8
               g8 := __USAT (toInt vG + res.c1 + 0x80) 16 >>> 8
               b8 := __USAT (toInt vB + res.c2 + 0x80) 16 >>> 8 } := by
  simp only [calibrated, LutCurrent.get, Pixel.get] at hR hG hB
  simp [updatePixelLocals, hR, hG, hB]

/-- One call on valid tables and a 16-bit residual: the call returns, every
byte of the word is the saturated rounding of the calibrated intensity plus
the residual, and the stored residual is the exact rounding error. -/
theorem updatePixel_step {t : LutCurrent} (ht : ValidLuts t) (icPrev icNext : Nat)
    (pp pn : Pixel) {res : Residual} (hres : ValidResidual res) :
    ∃ w res1, updatePixel t icPrev icNext pp pn res = some (w, res1) ∧
      ∀ c : Chan, ∃ v, calibrated t icPrev icNext pp pn c = some v ∧ v ≤ 0xFFFF ∧
        wordByte c w = __USAT ((v : Int) + res.get c + 0x80) 16 >>> 8 ∧
        res1.get c = (v : Int) + res.get c - 257 * (wordByte c w : Int) := by
  obtain ⟨vR, hR, hR16⟩ := calibrated_some_le ht icPrev icNext pp pn .red
  obtain ⟨vG, hG, hG16⟩ := calibrated_some_le ht icPrev icNext pp pn .green
  obtain ⟨vB, hB, hB16⟩ := calibrated_some_le ht icPrev icNext pp pn .blue
  have hl := updatePixelLocals_of_calibrated res hR hG hB
  rw [toInt_of_lt (by omega : vR < 2147483648), toInt_of_lt (by omega : vG < 2147483648),
    toInt_of_lt (by omega : vB < 2147483648)] at hl
  obtain ⟨⟨a1, a2⟩, ⟨b1, b2⟩, ⟨c1, c2⟩⟩ := hres
  have eR := round_error_range hR16 a1 a2
  have eG := round_error_range hG16 b1 b2
  have eB := round_error_range hB16 c1 c2
  have lR := round_byte_le ((vR : Int) + res.c0)
  have lG := round_byte_le ((vG : Int) + res.c1)
  have lB := round_byte_le ((vB : Int) + res.c2)
  obtain ⟨wR, wG, wB⟩ := wordByte_pack (Nat.lt_succ_of_le lG) (Nat.lt_succ_of_le lR)
    (Nat.lt_succ_of_le lB)
  refine ⟨_, _, by simp only [updatePixel, hl, Option.bind_eq_bind, Option.some_bind]; rfl, ?_⟩
  intro c
  cases c
  · refine ⟨vR, hR, hR16, wR, ?_⟩
    simp only [Residual.get, wR]
    rw [toResidual_of_range (by omega) (by omega)]
    ring
  · refine ⟨vG, hG, hG16, wG, ?_⟩
    simp only [Residual.get, wG]
    rw [toResidual_of_range (by omega) (by omega)]
    ring
  · refine ⟨vB, hB, hB16, wB, ?_⟩
    simp only [Residual.get, wB]
    rw [toResidual_of_range (by omega) (by omega)]
    ring

/-! ## Properties of `lutInterpolate` -/

/-- C6 (lutInterpolate formula): on a table of 257 unsigned 16-bit entries and
for `arg` in `[0, 0xFFFF]`, with `index = arg >> 8` and `alpha = arg & 0xFF`,
both entries are read successfully, the sum
`table[index] * (256 - alpha) + table[index+1] * alpha` is below `2 ^ 32` (the
unsigned 32-bit sum does not wrap) and the result is that sum divided by 256
over the integers, rounded down. -/
theorem lutInterpolate_formula (lut : List Nat) (arg : Nat) (h : ValidLut lut)
    (harg : arg ≤ 0xFFFF) :
    ∃ lo hi, lut[arg >>> 8]? = some lo ∧ lut[arg >>> 8 + 1]? = some hi ∧
      lo * (256 - (arg &&& 0xFF)) + hi * (arg &&& 0xFF) < 4294967296 ∧
      lutInterpolate lut arg
        = some ((lo * (256 - (arg &&& 0xFF)) + hi * (arg &&& 0xFF)) / 256) := by
  obtain ⟨lo, hi, hlo, hhi, hlo16, hhi16, hv⟩ := lutInterpolate_valid h harg
  have hs := weighted_sum_lt hlo16 hhi16 (Nat.mod_lt arg (by decide : 0 < 256))
  rw [and_255]
  exact ⟨lo, hi, hlo, hhi, by omega, hv⟩

set_option maxRecDepth 100000 in
/-- Instance of C6 on the ramp table at `arg = 0x1234`. -/
theorem lutInterpolate_formula_witness :
    ValidLut rampLut ∧ 0x1234 ≤ 0xFFFF ∧
      ∃ lo hi, rampLut[0x1234 >>> 8]? = some lo ∧ rampLut[0x1234 >>> 8 + 1]? = some hi ∧
        lo * (256 - (0x1234 &&& 0xFF)) + hi * (0x1234 &&& 0xFF) < 4294967296 ∧
        lutInterpolate rampLut 0x1234
          = some ((lo * (256 - (0x1234 &&& 0xFF)) + hi * (0x1234 &&& 0xFF)) / 256) :=
  ⟨by decide, by decide, lutInterpolate_formula rampLut 0x1234 (by decide) (by decide)⟩

/-- C7 (lutInterpolate range): on a table of 257 unsigned 16-bit entries and
for `arg` in `[0, 0xFFFF]`, `lutInterpolate` returns a value in `[0, 0xFFFF]`. -/
theorem lutInterpolate_range (lut : List Nat) (arg : Nat) (h : ValidLut lut)
    (harg : arg ≤ 0xFFFF) :
    ∃ v, lutInterpolate lut arg = some v ∧ 0 ≤ v ∧ v ≤ 0xFFFF := by
  obtain ⟨v, hv, hle⟩ := lutInterpolate_some_le h harg
  exact ⟨v, hv, Nat.zero_le v, hle⟩

set_option maxRecDepth 100000 in
/-- Instance of C7 on the ramp table at `arg = 0xFFFF`. -/
theorem lutInterpolate_range_witness :
    ValidLut rampLut ∧ 0xFFFF ≤ 0xFFFF ∧
      ∃ v, lutInterpolate rampLut 0xFFFF = some v ∧ 0 ≤ v ∧ v ≤ 0xFFFF :=
  ⟨by decide, by decide, lutInterpolate_range rampLut 0xFFFF (by decide) (by decide)⟩

/-- C8 (interpolator boundary): for `arg` in `[0, 0xFFFF]` the two indices
read, `arg >> 8` and `(arg >> 8) + 1`, are at most 256; on every table of 257
entries the call returns (no read fails); two tables that agree at these two
indices give the same result, so no other entry is read; and for
`arg = 0xFFFF` the result is `(table[255] * 1 + table[256] * 255) >> 8`. -/
theorem lutInterpolate_boundary (arg : Nat) (harg : arg ≤ 0xFFFF) :
    (arg >>> 8 ≤ 256 ∧ arg >>> 8 + 1 ≤ 256) ∧
    (∀ lut : List Nat, lut.length = 257 → (lutInterpolate lut arg).isSome = true) ∧
    (∀ lut lut2 : List Nat, lut[arg >>> 8]? = lut2[arg >>> 8]? →
      lut[arg >>> 8 + 1]? = lut2[arg >>> 8 + 1]? →
      lutInterpolate lut arg = lutInterpolate lut2 arg) ∧
    (∀ lut : List Nat, ValidLut lut → ∃ a b, lut[255]? = some a ∧ lut[256]? = some b ∧
      lutInterpolate lut 0xFFFF = some ((a * 1 + b * 255) >>> 8)) := by
  have hi8 : arg >>> 8 ≤ 255 := by rw [shr_8]; omega
  refine ⟨⟨by omega, by omega⟩, ?_, ?_, ?_⟩
  · intro lut hlen
    have h1 : arg >>> 8 < lut.length := by omega
    have h2 : arg >>> 8 + 1 < lut.length := by omega
    simp only [lutInterpolate, List.getElem?_eq_getElem h1, List.getElem?_eq_getElem h2,
      Option.isSome_some]
  · intro lut lut2 h1 h2
    simp only [lutInterpolate, h1, h2]
  · intro lut hlut
    obtain ⟨a, ha, ha16⟩ := hlut.get_lo (by omega : 255 ≤ 256)
    obtain ⟨b, hb, hb16⟩ := hlut.get_lo (by omega : 256 ≤ 256)
    refine ⟨a, b, ha, hb, ?_⟩
    have h := @lutInterpolate_of_entries lut 0xFFFF a b ha hb ha16 hb16
    rw [h, shr_8]

/-- Instance of C8 at `arg = 0xFFFF`. -/
theorem lutInterpolate_boundary_witness :
    0xFFFF ≤ 0xFFFF ∧ (0xFFFF >>> 8 ≤ 256 ∧ 0xFFFF >>> 8 + 1 ≤ 256) ∧
      (∀ lut : List Nat, lut.length = 257 → (lutInterpolate lut 0xFFFF).isSome = true) :=
  ⟨by decide, (lutInterpolate_boundary 0xFFFF (by decide)).1,
    (lutInterpolate_boundary 0xFFFF (by decide)).2.1⟩

/-- C9 (interpolator identity): if all 257 entries of the table are equal to
one unsigned 16-bit value `v`, then `lutInterpolate` returns `v` for every
`arg` in `[0, 0xFFFF]`. -/
theorem lutInterpolate_identity (lut : List Nat) (v arg : Nat) (hlen : lut.length = 257)
    (hall : ∀ x ∈ lut, x = v) (hv : v < 65536) (harg : arg ≤ 0xFFFF) :
    lutInterpolate lut arg = some v := by
  have hlut : ValidLut lut := ⟨hlen, fun x hx => by rw [hall x hx]; exact hv⟩
  obtain ⟨lo, hi, hlo, hhi, -, -, hres⟩ := lutInterpolate_valid hlut harg
  rw [hres, hall lo (List.getElem?_mem hlo), hall hi (List.getElem?_mem hhi), ← Nat.mul_add,
    Nat.sub_add_cancel (Nat.le_of_lt (Nat.mod_lt arg (by decide : 0 < 256))),
    Nat.mul_div_cancel v (by decide : 0 < 256)]

set_option maxRecDepth 100000 in
/-- Instance of C9 on the constant table `0xFE80` at `arg = 0xABCD`. -/
theorem lutInterpolate_identity_witness :
    (constLut 0xFE80).length = 257 ∧ (∀ x ∈ constLut 0xFE80, x = 0xFE80) ∧
      0xFE80 < 65536 ∧ 0xABCD ≤ 0xFFFF ∧
      lutInterpolate (constLut 0xFE80) 0xABCD = some 0xFE80 :=
  ⟨by decide, by decide, by decide, by decide,
    lutInterpolate_identity (constLut 0xFE80) 0xFE80 0xABCD (by decide) (by decide)
      (by decide) (by decide)⟩

/-! ## Properties of the temporal blend -/

theorem ValidPixel.get_lt {p : Pixel} (h : ValidPixel p) (c : Chan) : p.get c < 256 := by
  cases c
  · exact h.1
  · exact h.2.1
  · exact h.2.2

/-- C10 (blend extremes): for 8-bit source bytes, with `icPrev = 0x1010000` and
`icNext = 0` the blended intensity of every channel is exactly `prev * 257`,
and with `icPrev = 0` and `icNext = 0x1010000` it is exactly `next * 257`. -/
theorem blend_extremes (pixelPrev pixelNext : Pixel) (hp : ValidPixel pixelPrev)
    (hn : ValidPixel pixelNext) (c : Chan) :
    blend 0x1010000 0 (pixelPrev.get c) (pixelNext.get c) = (pixelPrev.get c : Int) * 257 ∧
      blend 0 0x1010000 (pixelPrev.get c) (pixelNext.get c) = (pixelNext.get c : Int) * 257 := by
  have h1 := hp.get_lt c
  have h2 := hn.get_lt c
  rw [blend_eq, blend_eq]
  constructor <;> omega

/-- Instance of C10 on the red channel of the sample pixels. -/
theorem blend_extremes_witness :
    ValidPixel sampleFrame.pixelPrev ∧ ValidPixel sampleFrame.pixelNext ∧
      blend 0x1010000 0 128 129 = 128 * 257 ∧ blend 0 0x1010000 128 129 = 129 * 257 :=
  ⟨by decide, by decide,
    blend_extremes sampleFrame.pixelPrev sampleFrame.pixelNext (by decide) (by decide) .red⟩

/-! ## Properties of one call of `updatePixel` -/

/-- C1 (residual exactness): for tables of 257 unsigned 16-bit entries, any
weights and source bytes and any prior residual in the signed 16-bit range,
one call of `updatePixel` returns, the residual it stores is again a signed
16-bit value, and for every channel the output byte `b` of the returned word
and the stored residual `r1` satisfy `b * 257 + r1 = x`, where `x` is the
calibrated intensity `lutInterpolate(table, blended)` plus the prior residual. -/
theorem residual_exactness (lutCurrent : LutCurrent) (icPrev icNext : Nat)
    (pixelPrev pixelNext : Pixel) (pResidual : Residual) (ht : ValidLuts lutCurrent)
    (hres : ValidResidual pResidual) :
    ∃ w res1, updatePixel lutCurrent icPrev icNext pixelPrev pixelNext pResidual
        = some (w, res1) ∧ ValidResidual res1 ∧
      ∀ c : Chan, ∃ v, calibrated lutCurrent icPrev icNext pixelPrev pixelNext c = some v ∧
        (wordByte c w : Int) * 257 + res1.get c = (v : Int) + pResidual.get c := by
  obtain ⟨w, res1, hw, hc⟩ := updatePixel_step ht icPrev icNext pixelPrev pixelNext hres
  refine ⟨w, res1, hw, ?_, ?_⟩
  · obtain ⟨⟨a1, a2⟩, ⟨b1, b2⟩, ⟨c1, c2⟩⟩ := hres
    obtain ⟨vR, -, hR16, bR, rR⟩ := hc .red
    obtain ⟨vG, -, hG16, bG, rG⟩ := hc .green
    obtain ⟨vB, -, hB16, bB, rB⟩ := hc .blue
    have eR := round_error_range hR16 a1 a2
    have eG := round_error_range hG16 b1 b2
    have eB := round_error_range hB16 c1 c2
    rw [bR] at rR
    rw [bG] at rG
    rw [bB] at rB
    simp only [Residual.get] at rR rG rB eR eG eB
    exact ⟨by omega, by omega, by omega⟩
  · intro c
    obtain ⟨v, hv, -, -, hr⟩ := hc c
    exact ⟨v, hv, by rw [hr]; ring⟩

set_option maxRecDepth 100000 in
/-- Instance of C1 on the sample inputs with extreme residuals. -/
theorem residual_exactness_witness :
    ValidLuts sampleLuts ∧ ValidResidual { c0 := 5, c1 := 32767, c2 := -32768 } ∧
      ∃ w res1, updatePixel sampleLuts 0x808000 0x808000 { c0 := 128, c1 := 0, c2 := 255 }
          { c0 := 129, c1 := 3, c2 := 9 } { c0 := 5, c1 := 32767, c2 := -32768 }
          = some (w, res1) ∧ ValidResidual res1 ∧
        ∀ c : Chan, ∃ v, calibrated sampleLuts 0x808000 0x808000
            { c0 := 128, c1 := 0, c2 := 255 } { c0 := 129, c1 := 3, c2 := 9 } c = some v ∧
          (wordByte c w : Int) * 257 + res1.get c
            = (v : Int) + Residual.get { c0 := 5, c1 := 32767, c2 := -32768 } c :=
  ⟨by decide, by decide,
    residual_exactness sampleLuts 0x808000 0x808000 { c0 := 128, c1 := 0, c2 := 255 }
      { c0 := 129, c1 := 3, c2 := 9 } { c0 := 5, c1 := 32767, c2 := -32768 }
      (by decide) (by decide)⟩

/-- C2 (saturation): for tables of 257 unsigned 16-bit entries and any prior
residual in the signed 16-bit range, with `x` the calibrated intensity plus
the residual of a channel, the output byte of that channel in the returned
word equals `clamp(x + 0x80, 0, 0xFFFF) >> 8` and lies in `[0, 255]`; it is 0
when `x < 0` and 255 when `x > 0xFFFF`. -/
theorem saturation (lutCurrent : LutCurrent) (icPrev icNext : Nat)
    (pixelPrev pixelNext : Pixel) (pResidual : Residual) (ht : ValidLuts lutCurrent)
    (hres : ValidResidual pResidual) :
    ∃ w res1, updatePixel lutCurrent icPrev icNext pixelPrev pixelNext pResidual
        = some (w, res1) ∧
      ∀ c : Chan, ∃ v, calibrated lutCurrent icPrev icNext pixelPrev pixelNext c = some v ∧
        wordByte c w
          = (max 0 (min 0xFFFF ((v : Int) + pResidual.get c + 0x80))).toNat >>> 8 ∧
        0 ≤ wordByte c w ∧ wordByte c w ≤ 255 ∧
        ((v : Int) + pResidual.get c < 0 → wordByte c w = 0) ∧
        ((v : Int) + pResidual.get c > 0xFFFF → wordByte c w = 255) := by
  obtain ⟨w, res1, hw, hc⟩ := updatePixel_step ht icPrev icNext pixelPrev pixelNext hres
  refine ⟨w, res1, hw, ?_⟩
  intro c
  obtain ⟨v, hv, -, hb, -⟩ := hc c
  refine ⟨v, hv, ?_, Nat.zero_le _, ?_, ?_, ?_⟩
  · rw [hb, shr_8, shr_8]
    rcases usat_cases ((v : Int) + pResidual.get c + 0x80) with ⟨h1, h⟩ | ⟨h1, h⟩ | ⟨h1, h2, h⟩
    · rw [h, max_eq_left (by omega)]; rfl
    · rw [h, min_eq_left (by omega)]; rfl
    · rw [min_eq_right (by omega), max_eq_right (by omega)]
      omega
  · rw [hb]
    exact round_byte_le _
  · intro hx
    rw [hb, shr_8]
    rcases usat_cases ((v : Int) + pResidual.get c + 0x80) with ⟨h1, h⟩ | ⟨h1, h⟩ | ⟨h1, h2, h⟩
    all_goals omega
  · intro hx
    rw [hb, shr_8]
    rcases usat_cases ((v : Int) + pResidual.get c + 0x80) with ⟨h1, h⟩ | ⟨h1, h⟩ | ⟨h1, h2, h⟩
    all_goals omega

set_option maxRecDepth 100000 in
/-- Instance of C2 on the sample inputs: the green channel is pushed above
`0xFFFF` and the blue channel below 0 by the residuals. -/
theorem saturation_witness :
    ValidLuts sampleLuts ∧ ValidResidual { c0 := 5, c1 := 32767, c2 := -32768 } ∧
      ∃ w res1, updatePixel sampleLuts 0x808000 0x808000 { c0 := 128, c1 := 0, c2 := 255 }
          { c0 := 129, c1 := 3, c2 := 9 } { c0 := 5, c1 := 32767, c2 := -32768 }
          = some (w, res1) ∧
        ∀ c : Chan, ∃ v, calibrated sampleLuts 0x808000 0x808000
            { c0 := 128, c1 := 0, c2 := 255 } { c0 := 129, c1 := 3, c2 := 9 } c = some v ∧
          wordByte c w = (max 0 (min 0xFFFF ((v : Int)
            + Residual.get { c0 := 5, c1 := 32767, c2 := -32768 } c + 0x80))).toNat >>> 8 ∧
          0 ≤ wordByte c w ∧ wordByte c w ≤ 255 ∧
          ((v : Int) + Residual.get { c0 := 5, c1 := 32767, c2 := -32768 } c < 0
            → wordByte c w = 0) ∧
          ((v : Int) + Residual.get { c0 := 5, c1 := 32767, c2 := -32768 } c > 0xFFFF
            → wordByte c w = 255) :=
  ⟨by decide, by decide,
    saturation sampleLuts 0x808000 0x808000 { c0 := 128, c1 := 0, c2 := 255 }
      { c0 := 129, c1 := 3, c2 := 9 } { c0 := 5, c1 := 32767, c2 := -32768 }
      (by decide) (by decide)⟩

/-! ## Repeated calls on one residual slot -/

theorem TightResidual.valid {r : Residual} (h : TightResidual r) : ValidResidual r := by
  have hR := h .red
  have hG := h .green
  have hB := h .blue
  simp only [Residual.get] at hR hG hB
  exact ⟨⟨by omega, by omega⟩, ⟨by omega, by omega⟩, ⟨by omega, by omega⟩⟩

theorem tightResidual_zero : TightResidual Residual.zero := by
  intro c
  cases c <;> simp [Residual.zero, Residual.get]

/-- One call from a residual in `[-383, 127]`: the call returns and the new
residual is in `[-383, 127]` again. -/
theorem Frame.update_tight {f : Frame} (hf : ValidFrame f) {res : Residual}
    (hres : TightResidual res) :
    ∃ w res1, f.update res = some (w, res1) ∧ TightResidual res1 ∧
      ∀ c : Chan, ∃ v, f.calibrated c = some v ∧ v ≤ 0xFFFF ∧
        wordByte c w = __USAT ((v : Int) + res.get c + 0x80) 16 >>> 8 ∧
        res1.get c = (v : Int) + res.get c - 257 * (wordByte c w : Int) := by
  obtain ⟨w, res1, hw, hc⟩ :=
    updatePixel_step hf.1 f.icPrev f.icNext f.pixelPrev f.pixelNext hres.valid
  refine ⟨w, res1, hw, ?_, hc⟩
  intro c
  obtain ⟨v, -, hv16, hb, hr⟩ := hc c
  have h := round_error_tight hv16 (hres c).1 (hres c).2
  rw [hr, hb]
  exact h

/-- A property of the residual slot that every call with the inputs `f`
preserves holds after any number of calls, and a property of the returned
word that every such call establishes holds for all the words returned. -/
theorem runPixel_replicate_invariant (f : Frame) (Inv : Residual → Prop) (P : Nat → Prop)
    (hstep : ∀ res, Inv res → ∃ w res1, f.update res = some (w, res1) ∧ Inv res1 ∧ P w) :
    ∀ (n : Nat) (res : Residual), Inv res →
      ∃ ws res1, runPixel res (List.replicate n f) = some (ws, res1) ∧ Inv res1 ∧
        ws.length = n ∧ ∀ w ∈ ws, P w := by
  intro n
  induction n with
  | zero =>
    intro res hres
    exact ⟨[], res, rfl, hres, rfl, fun w hw => absurd hw (List.not_mem_nil w)⟩
  | succ n ih =>
    intro res hres
    obtain ⟨w, res1, hw, hinv, hP⟩ := hstep res hres
    obtain ⟨ws, res2, hrun, hinv2, hlen, hall⟩ := ih res1 hinv
    refine ⟨w :: ws, res2, ?_, hinv2, by simp [hlen], ?_⟩
    · simp only [List.replicate_succ, runPixel, hw, hrun]
    · intro x hx
      rcases List.mem_cons.1 hx with rfl | hx
      · exact hP
      · exact hall x hx

/-- Any sequence of calls with valid inputs, started from a residual in
`[-383, 127]`, returns and leaves a residual in `[-383, 127]`. -/
theorem runPixel_tight (fs : List Frame) (hfs : ∀ g ∈ fs, ValidFrame g) :
    ∀ res : Residual, TightResidual res →
      ∃ ws res1, runPixel res fs = some (ws, res1) ∧ TightResidual res1 ∧
        ws.length = fs.length := by
  induction fs with
  | nil =>
    intro res hres
    exact ⟨[], res, rfl, hres, rfl⟩
  | cons g gs ih =>
    intro res hres
    obtain ⟨w, res1, hw, ht, -⟩ := Frame.update_tight (hfs g (List.mem_cons_self g gs)) hres
    obtain ⟨ws, res2, hrun, ht2, hlen⟩ :=
      ih (fun x hx => hfs x (List.mem_cons_of_mem g hx)) res1 ht
    exact ⟨w :: ws, res2, by simp only [runPixel, hw, hrun], ht2, by simp [hlen]⟩

/-- C3 (residual stays representable): start from the zero residual and make
any finite sequence `fs` of calls with valid inputs, the inputs and tables
free to change from call to call. The calls return, and in one more call with
valid inputs `f` the exact new residual `x - 257 * b` of every channel lies in
`[-32768, 32767]` and is the value found in the slot after the call, so the
store into the signed 16-bit slot does not truncate. -/
theorem residual_representable (fs : List Frame) (f : Frame)
    (hfs : ∀ g ∈ fs, ValidFrame g) (hf : ValidFrame f) :
    ∃ ws res, runPixel Residual.zero fs = some (ws, res) ∧
      ∃ w res1, f.update res = some (w, res1) ∧
        ∀ c : Chan, ∃ v, f.calibrated c = some v ∧
          -32768 ≤ (v : Int) + res.get c - 257 * (wordByte c w : Int) ∧
          (v : Int) + res.get c - 257 * (wordByte c w : Int) ≤ 32767 ∧
          res1.get c = (v : Int) + res.get c - 257 * (wordByte c w : Int) := by
  obtain ⟨ws, res, hrun, ht, -⟩ := runPixel_tight fs hfs Residual.zero tightResidual_zero
  obtain ⟨w, res1, hw, ht1, hc⟩ := Frame.update_tight hf ht
  refine ⟨ws, res, hrun, w, res1, hw, ?_⟩
  intro c
  obtain ⟨v, hv, -, -, hr⟩ := hc c
  have h := ht1 c
  rw [hr] at h
  exact ⟨v, hv, by omega, by omega, hr⟩

set_option maxRecDepth 100000 in
/-- Instance of C3: two calls with different inputs and tables, then a third. -/
theorem residual_representable_witness :
    (∀ g ∈ [sampleFrame, fullFrame], ValidFrame g) ∧ ValidFrame sampleFrame ∧
      ∃ ws res, runPixel Residual.zero [sampleFrame, fullFrame] = some (ws, res) ∧
        ∃ w res1, sampleFrame.update res = some (w, res1) ∧
          ∀ c : Chan, ∃ v, sampleFrame.calibrated c = some v ∧
            -32768 ≤ (v : Int) + res.get c - 257 * (wordByte c w : Int) ∧
            (v : Int) + res.get c - 257 * (wordByte c w : Int) ≤ 32767 ∧
            res1.get c = (v : Int) + res.get c - 257 * (wordByte c w : Int) :=
  ⟨by decide, by decide,
    residual_representable [sampleFrame, fullFrame] sampleFrame (by decide) (by decide)⟩

/-! ## Constant inputs: the average of the output bytes -/

theorem byteSum_cons (c : Chan) (w : Nat) (ws : List Nat) :
    byteSum c (w :: ws) = wordByte c w + byteSum c ws := by
  simp [byteSum]

/-- With constant valid inputs, from a residual in `[-383, 127]`: after `n`
calls, 257 times the sum of the output bytes of a channel is `n` times the
calibrated intensity plus the initial residual minus the final residual. -/
theorem runPixel_replicate_sum {f : Frame} (hf : ValidFrame f) (c : Chan) {L : Nat}
    (hL : f.calibrated c = some L) :
    ∀ (n : Nat) (res : Residual), TightResidual res →
      ∃ ws res1, runPixel res (List.replicate n f) = some (ws, res1) ∧ TightResidual res1 ∧
        ws.length = n ∧
        257 * (byteSum c ws : Int) = (n : Int) * (L : Int) + res.get c - res1.get c := by
  intro n
  induction n with
  | zero =>
    intro res hres
    exact ⟨[], res, rfl, hres, rfl, by simp [byteSum]⟩
  | succ n ih =>
    intro res hres
    obtain ⟨w, res1, hw, ht, hc⟩ := Frame.update_tight hf hres
    obtain ⟨ws, res2, hrun, ht2, hlen, hsum⟩ := ih res1 ht
    refine ⟨w :: ws, res2, ?_, ht2, by simp [hlen], ?_⟩
    · simp only [List.replicate_succ, runPixel, hw, hrun]
    · obtain ⟨v, hv, -, -, hr⟩ := hc c
      rw [hL] at hv
      cases hv
      rw [byteSum_cons]
      push_cast
      rw [hr] at hsum
      linarith

/-- With constant valid inputs and a zero initial residual the run returns, and
`outputSum` is the sum of the bytes of the returned words. -/
theorem outputSum_spec {f : Frame} (hf : ValidFrame f) (c : Chan) {L : Nat}
    (hL : f.calibrated c = some L) (n : Nat) :
    ∃ ws res, runPixel Residual.zero (List.replicate n f) = some (ws, res) ∧
      ws.length = n ∧ outputSum f c n = byteSum c ws ∧
      257 * (byteSum c ws : Int) = (n : Int) * (L : Int) - res.get c ∧
      |257 * (byteSum c ws : Int) - (n : Int) * (L : Int)| ≤ 383 := by
  obtain ⟨ws, res, hrun, ht, hlen, hsum⟩ :=
    runPixel_replicate_sum hf c hL n Residual.zero tightResidual_zero
  have h0 : Residual.zero.get c = 0 := by cases c <;> rfl
  rw [h0] at hsum
  have hb := ht c
  refine ⟨ws, res, hrun, hlen, by simp only [outputSum, hrun], by omega, ?_⟩
  rw [abs_le]
  constructor <;> omega

/-- C4 (residual feedback, average convergence): for constant valid inputs
whose calibrated intensity on a channel is `L`, and a zero initial residual,
`L` is in `[0, 0xFFFF]`; for every `N` the `N` calls return and the sum `S` of
the `N` output bytes of the channel satisfies `257 * S = N * L - r`, with `r`
the residual after the last call, and `|257 * S - N * L| ≤ 383`; and the
running average `S / N` converges to `L / 257`. -/
theorem average_convergence (f : Frame) (c : Chan) (L : Nat) (hf : ValidFrame f)
    (hL : f.calibrated c = some L) :
    L ≤ 0xFFFF ∧
    (∀ N : Nat, ∃ ws res, runPixel Residual.zero (List.replicate N f) = some (ws, res) ∧
      ws.length = N ∧ outputSum f c N = byteSum c ws ∧
      257 * (byteSum c ws : Int) = (N : Int) * (L : Int) - res.get c ∧
      |257 * (byteSum c ws : Int) - (N : Int) * (L : Int)| ≤ 383) ∧
    Filter.Tendsto (fun N : Nat => (outputSum f c N : ℝ) / (N : ℝ)) Filter.atTop
      (nhds ((L : ℝ) / 257)) := by
  refine ⟨?_, fun N => outputSum_spec hf c hL N, ?_⟩
  · obtain ⟨v, hv, hle⟩ :=
      calibrated_some_le hf.1 f.icPrev f.icNext f.pixelPrev f.pixelNext c
    have hv2 : f.calibrated c = some v := hv
    rw [hL] at hv2
    cases hv2
    exact hle
  · have key : ∀ N : Nat, |257 * (outputSum f c N : ℝ) - (N : ℝ) * (L : ℝ)| ≤ 383 := by
      intro N
      obtain ⟨ws, res, -, -, hS, -, hbound⟩ := outputSum_spec hf c hL N
      rw [← hS] at hbound
      have h : ((|257 * (outputSum f c N : Int) - (N : Int) * (L : Int)| : Int) : ℝ)
          ≤ ((383 : Int) : ℝ) := Int.cast_le.2 hbound
      push_cast at h
      exact h
    rw [Metric.tendsto_atTop]
    intro ε hε
    obtain ⟨N0, hN0⟩ := exists_nat_gt (383 / (257 * ε))
    refine ⟨N0 + 1, fun n hn => ?_⟩
    have hn0 : (0 : ℝ) < (n : ℝ) := by
      have : 0 < n := by omega
      exact_mod_cast this
    have hn1 : (N0 : ℝ) < (n : ℝ) := by
      have : N0 < n := by omega
      exact_mod_cast this
    have hpos : (0 : ℝ) < 257 * ε := by positivity
    have h1 : 383 < 257 * ε * (n : ℝ) := by
      have := (div_lt_iff₀ hpos).1 (lt_trans hN0 hn1)
      linarith
    have h2 : (outputSum f c n : ℝ) / (n : ℝ) - (L : ℝ) / 257
        = (257 * (outputSum f c n : ℝ) - (n : ℝ) * (L : ℝ)) / (257 * (n : ℝ)) := by
      field_simp
      ring
    rw [Real.dist_eq, h2, abs_div, abs_of_pos (by positivity : (0 : ℝ) < 257 * (n : ℝ)),
      div_lt_iff₀ (by positivity)]
    have := key n
    linarith

set_option maxRecDepth 100000 in
/-- Instance of C4 on the green channel of the sample inputs, `L = 0xFE80`. -/
theorem average_convergence_witness :
    ValidFrame sampleFrame ∧ sampleFrame.calibrated .green = some 0xFE80 ∧
      (0xFE80 ≤ 0xFFFF ∧
      (∀ N : Nat, ∃ ws res,
        runPixel Residual.zero (List.replicate N sampleFrame) = some (ws, res) ∧
        ws.length = N ∧ outputSum sampleFrame .green N = byteSum .green ws ∧
        257 * (byteSum .green ws : Int) = (N : Int) * ((0xFE80 : Nat) : Int) - res.get .green ∧
        |257 * (byteSum .green ws : Int) - (N : Int) * ((0xFE80 : Nat) : Int)| ≤ 383) ∧
      Filter.Tendsto (fun N : Nat => (outputSum sampleFrame .green N : ℝ) / (N : ℝ))
        Filter.atTop (nhds (((0xFE80 : Nat) : ℝ) / 257))) :=
  ⟨by decide, by decide,
    average_convergence sampleFrame .green 0xFE80 (by decide) (by decide)⟩

/-! ## Constant inputs: which bytes are produced -/

/-- From a residual in `[-383, 127]` the output byte is one of the four values
`q - 1, q, q + 1, q + 2` around `q = v / 257`. -/
theorem round_byte_near {v : Nat} {r : Int} (hv : v ≤ 0xFFFF) (h1 : -383 ≤ r)
    (h2 : r ≤ 127) :
    v / 257 ≤ __USAT ((v : Int) + r + 0x80) 16 >>> 8 + 1 ∧
      __USAT ((v : Int) + r + 0x80) 16 >>> 8 ≤ v / 257 + 2 := by
  rw [shr_8]
  rcases usat_cases ((v : Int) + r + 0x80) with ⟨h3, h⟩ | ⟨h3, h⟩ | ⟨h3, h4, h⟩
  · rw [h]; omega
  · rw [h]; omega
  · omega

/-- With `q = v / 257`: a residual in `[-129 - q, 127 - q]`, not `-129 - q`
when `v` is a multiple of 257, gives the byte `q` or `q + 1` and a new
residual in the same window. -/
theorem round_byte_adjacent {v : Nat} {r : Int} (hv : v ≤ 0xFFFF)
    (h1 : -129 - ((v / 257 : Nat) : Int) ≤ r) (h2 : r ≤ 127 - ((v / 257 : Nat) : Int))
    (h3 : v % 257 = 0 → -128 - ((v / 257 : Nat) : Int) ≤ r) :
    (__USAT ((v : Int) + r + 0x80) 16 >>> 8 = v / 257 ∨
      __USAT ((v : Int) + r + 0x80) 16 >>> 8 = v / 257 + 1) ∧
    -129 - ((v / 257 : Nat) : Int)
      ≤ (v : Int) + r - 257 * ((__USAT ((v : Int) + r + 0x80) 16 >>> 8 : Nat) : Int) ∧
    (v : Int) + r - 257 * ((__USAT ((v : Int) + r + 0x80) 16 >>> 8 : Nat) : Int)
      ≤ 127 - ((v / 257 : Nat) : Int) ∧
    (v % 257 = 0 → -128 - ((v / 257 : Nat) : Int)
      ≤ (v : Int) + r - 257 * ((__USAT ((v : Int) + r + 0x80) 16 >>> 8 : Nat) : Int)) := by
  rw [shr_8]
  rcases usat_cases ((v : Int) + r + 0x80) with ⟨h3, h⟩ | ⟨h3, h⟩ | ⟨h3, h4, h⟩
  · rw [h]; omega
  · rw [h]; omega
  · omega

/-- The calibrated intensity of the mid-point example is 33024. -/
theorem calibrated_midpoint {f : Frame} {c : Chan} (h1 : f.icPrev = 0x808000)
    (h2 : f.icNext = 0x808000) (h3 : f.pixelPrev.get c = 128) (h4 : f.pixelNext.get c = 129)
    (h5 : ∀ i, i ≤ 255 → (f.lutCurrent.get c)[i]? = some (256 * i)) :
    f.calibrated c = some 33024 := by
  have hb : toU32 (blend f.icPrev f.icNext (f.pixelPrev.get c) (f.pixelNext.get c)) = 33024 := by
    rw [toU32_blend, h1, h2, h3, h4]
  unfold Frame.calibrated calibrated
  rw [hb]
  have hlo : (f.lutCurrent.get c)[33024 >>> 8]? = some (256 * 129) := h5 129 (by decide)
  have hhi : (f.lutCurrent.get c)[33024 >>> 8 + 1]? = some (256 * 130) := h5 130 (by decide)
  rw [lutInterpolate_of_entries hlo hhi (by decide) (by decide)]

/-- C5, the claim as stated fails: on the green channel of `sampleFrame` the
table is constantly `0xFE80`, so `L = 0xFE80 = 65152` and `L / 257 = 253`, but
the first call from the zero residual returns the word `0xFF8000`, whose green
byte is 255 (`65152 + 0x80 = 0xFF00`), neither 253 nor 254. -/
theorem dither_adjacent_counterexample :
    (ValidFrame sampleFrame ∧ sampleFrame.calibrated .green = some 0xFE80 ∧
      runPixel Residual.zero (List.replicate 1 sampleFrame)
        = some ([0xFF8000], { c0 := -1, c1 := -383, c2 := 0 }) ∧
      wordByte .green 0xFF8000 = 255 ∧ 0xFE80 / 257 = 253) ∧
    ¬ (∀ (f : Frame) (c : Chan) (L N : Nat) (ws : List Nat) (res : Residual),
      ValidFrame f → f.calibrated c = some L →
      runPixel Residual.zero (List.replicate N f) = some (ws, res) →
      ∀ w ∈ ws, wordByte c w = L / 257 ∨ wordByte c w = min (L / 257 + 1) 255) := by
  have hv : ValidFrame sampleFrame := by
    set_option maxRecDepth 100000 in decide
  have hc : sampleFrame.calibrated .green = some 0xFE80 := by
    set_option maxRecDepth 100000 in decide
  have hr : runPixel Residual.zero (List.replicate 1 sampleFrame)
      = some ([0xFF8000], { c0 := -1, c1 := -383, c2 := 0 }) := by
    set_option maxRecDepth 100000 in decide
  refine ⟨⟨hv, hc, hr, by decide, by decide⟩, ?_⟩
  intro h
  have h2 := h sampleFrame .green 0xFE80 1 _ _ hv hc hr 0xFF8000 (List.mem_singleton.2 rfl)
  revert h2
  decide

/-- C5 as amended: for constant valid inputs whose calibrated intensity on a
channel is `L`, and a zero initial residual, the `N` calls return and every
output byte `b` of the channel satisfies `L / 257 - 1 ≤ b ≤ L / 257 + 2` and
`b ≤ 255`; when `L < 32896` every output byte is `L / 257` or `L / 257 + 1`;
and in the mid-point example (bytes 128 and 129, both weights `0x808000`,
`table[i] = 256 * i` for `i ≤ 255`) every output byte is 128 or 129. -/
theorem dither_adjacent_amended (f : Frame) (c : Chan) (L N : Nat) (hf : ValidFrame f)
    (hL : f.calibrated c = some L) :
    ∃ ws res, runPixel Residual.zero (List.replicate N f) = some (ws, res) ∧
      ws.length = N ∧
      (∀ w ∈ ws, L / 257 ≤ wordByte c w + 1 ∧ wordByte c w ≤ L / 257 + 2 ∧
        wordByte c w ≤ 255) ∧
      (L < 32896 → ∀ w ∈ ws, wordByte c w = L / 257 ∨ wordByte c w = L / 257 + 1) ∧
      (f.icPrev = 0x808000 → f.icNext = 0x808000 → f.pixelPrev.get c = 128 →
        f.pixelNext.get c = 129 →
        (∀ i, i ≤ 255 → (f.lutCurrent.get c)[i]? = some (256 * i)) →
        ∀ w ∈ ws, wordByte c w = 128 ∨ wordByte c w = 129) := by
  have h0 : Residual.zero.get c = 0 := by cases c <;> rfl
  -- every call, from a residual in `[-383, 127]`
  have stepA : ∀ res, TightResidual res → ∃ w res1, f.update res = some (w, res1) ∧
      TightResidual res1 ∧ (L / 257 ≤ wordByte c w + 1 ∧ wordByte c w ≤ L / 257 + 2 ∧
        wordByte c w ≤ 255 ∧ (L = 33024 → wordByte c w = 128 ∨ wordByte c w = 129)) := by
    intro res hres
    obtain ⟨w, res1, hw, ht, hc⟩ := Frame.update_tight hf hres
    obtain ⟨v, hv, hv16, hb, -⟩ := hc c
    rw [hL] at hv
    cases hv
    have hn := round_byte_near hv16 (hres c).1 (hres c).2
    have hle := round_byte_le ((L : Int) + res.get c)
    refine ⟨w, res1, hw, ht, by omega, by omega, by omega, ?_⟩
    intro hL33
    have hr := hres c
    rw [hb, shr_8]
    rcases usat_cases ((L : Int) + res.get c + 0x80) with ⟨h3, h⟩ | ⟨h3, h⟩ | ⟨h3, h4, h⟩
    all_goals omega
  obtain ⟨ws, res, hrun, -, hlen, hA⟩ :=
    runPixel_replicate_invariant f TightResidual _ stepA N Residual.zero tightResidual_zero
  refine ⟨ws, res, hrun, hlen, fun w hw => ⟨(hA w hw).1, (hA w hw).2.1, (hA w hw).2.2.1⟩,
    ?_, ?_⟩
  · intro hlt
    -- the window `[-129 - q, 127 - q]` holds the zero residual when `L < 32896`
    have stepB : ∀ res : Residual,
        (TightResidual res ∧ -129 - ((L / 257 : Nat) : Int) ≤ res.get c ∧
          res.get c ≤ 127 - ((L / 257 : Nat) : Int) ∧
          (L % 257 = 0 → -128 - ((L / 257 : Nat) : Int) ≤ res.get c)) →
        ∃ w res1, f.update res = some (w, res1) ∧
          (TightResidual res1 ∧ -129 - ((L / 257 : Nat) : Int) ≤ res1.get c ∧
            res1.get c ≤ 127 - ((L / 257 : Nat) : Int) ∧
            (L % 257 = 0 → -128 - ((L / 257 : Nat) : Int) ≤ res1.get c)) ∧
          (wordByte c w = L / 257 ∨ wordByte c w = L / 257 + 1) := by
      intro res hres
      obtain ⟨w, res1, hw, ht, hc⟩ := Frame.update_tight hf hres.1
      obtain ⟨v, hv, hv16, hb, hr⟩ := hc c
      rw [hL] at hv
      cases hv
      obtain ⟨a1, a2, a3, a4⟩ := round_byte_adjacent hv16 hres.2.1 hres.2.2.1 hres.2.2.2
      rw [← hb] at a1 a2 a3 a4
      refine ⟨w, res1, hw, ⟨ht, ?_, ?_, ?_⟩, a1⟩
      · rw [hr]; exact a2
      · rw [hr]; exact a3
      · rw [hr]; exact a4
    obtain ⟨ws2, res2, hrun2, -, -, hB⟩ :=
      runPixel_replicate_invariant f _ _ stepB N Residual.zero
        ⟨tightResidual_zero, by rw [h0]; omega, by rw [h0]; omega, fun _ => by rw [h0]; omega⟩
    rw [hrun] at hrun2
    cases hrun2
    exact hB
  · intro h1 h2 h3 h4 h5 w hw
    have hmid := calibrated_midpoint h1 h2 h3 h4 h5
    rw [hL] at hmid
    cases hmid
    exact (hA w hw).2.2.2 rfl

set_option maxRecDepth 100000 in
/-- Instance of the amended C5 on the mid-point example, six calls. -/
theorem dither_adjacent_amended_witness :
    ValidFrame midFrame ∧ midFrame.calibrated .red = some 33024 ∧
      ∃ ws res, runPixel Residual.zero (List.replicate 6 midFrame) = some (ws, res) ∧
        ws.length = 6 ∧
        (∀ w ∈ ws, 33024 / 257 ≤ wordByte .red w + 1 ∧ wordByte .red w ≤ 33024 / 257 + 2 ∧
          wordByte .red w ≤ 255) ∧
        (33024 < 32896 → ∀ w ∈ ws, wordByte .red w = 33024 / 257 ∨
          wordByte .red w = 33024 / 257 + 1) ∧
        (midFrame.icPrev = 0x808000 → midFrame.icNext = 0x808000 →
          midFrame.pixelPrev.get .red = 128 → midFrame.pixelNext.get .red = 129 →
          (∀ i, i ≤ 255 → (midFrame.lutCurrent.get .red)[i]? = some (256 * i)) →
          ∀ w ∈ ws, wordByte .red w = 128 ∨ wordByte .red w = 129) :=
  ⟨by decide, by decide,
    dither_adjacent_amended midFrame .red 33024 6 (by decide) (by decide)⟩

/-! ## Range and convexity of the temporal blend -/

/-- Under the weight contract the sum of the two products is at most
`0xFFFF0000` for 8-bit source bytes. -/
theorem blend_sum_le {icPrev icNext prev next : Nat} (hw : ValidWeights icPrev icNext)
    (hp : prev < 256) (hn : next < 256) :
    prev * icPrev + next * icNext ≤ 0xFFFF0000 := by
  have h1 : prev * icPrev ≤ 255 * icPrev := Nat.mul_le_mul_right _ (by omega)
  have h2 : next * icNext ≤ 255 * icNext := Nat.mul_le_mul_right _ (by omega)
  unfold ValidWeights at hw
  omega

/-- C11 (blend range without overflow): for 8-bit source bytes and weights
with `icPrev + icNext = 0x1010000`, on every channel the sum
`prev * icPrev + next * icNext` is at most `0xFFFF0000`, the `uint32_t`
evaluation of the sum does not wrap, the blended intensity is the integer
quotient of the sum by 65536 and it lies in `[0, 0xFFFF]`. -/
theorem blend_range (icPrev icNext : Nat) (pixelPrev pixelNext : Pixel)
    (hw : ValidWeights icPrev icNext) (hp : ValidPixel pixelPrev)
    (hn : ValidPixel pixelNext) (c : Chan) :
    pixelPrev.get c * icPrev + pixelNext.get c * icNext ≤ 0xFFFF0000 ∧
      u32 (u32 (pixelPrev.get c * icPrev) + u32 (pixelNext.get c * icNext))
        = pixelPrev.get c * icPrev + pixelNext.get c * icNext ∧
      blend icPrev icNext (pixelPrev.get c) (pixelNext.get c)
        = (((pixelPrev.get c * icPrev + pixelNext.get c * icNext) / 65536 : Nat) : Int) ∧
      0 ≤ blend icPrev icNext (pixelPrev.get c) (pixelNext.get c) ∧
      blend icPrev icNext (pixelPrev.get c) (pixelNext.get c) ≤ 0xFFFF := by
  have hs := blend_sum_le hw (hp.get_lt c) (hn.get_lt c)
  have hmod : (pixelPrev.get c * icPrev + pixelNext.get c * icNext) % 4294967296
      = pixelPrev.get c * icPrev + pixelNext.get c * icNext := Nat.mod_eq_of_lt (by omega)
  refine ⟨hs, ?_, ?_, ?_, ?_⟩
  · unfold u32
    omega
  · rw [blend_eq, hmod]
  · rw [blend_eq]
    omega
  · rw [blend_eq]
    omega

/-- Instance of C11 on the red channel of the sample call. -/
theorem blend_range_witness :
    ValidWeights 0x808000 0x808000 ∧ ValidPixel sampleFrame.pixelPrev ∧
      ValidPixel sampleFrame.pixelNext ∧
      (128 * 0x808000 + 129 * 0x808000 ≤ 0xFFFF0000 ∧
        u32 (u32 (128 * 0x808000) + u32 (129 * 0x808000)) = 128 * 0x808000 + 129 * 0x808000 ∧
        blend 0x808000 0x808000 128 129
          = (((128 * 0x808000 + 129 * 0x808000) / 65536 : Nat) : Int) ∧
        0 ≤ blend 0x808000 0x808000 128 129 ∧ blend 0x808000 0x808000 128 129 ≤ 0xFFFF) :=
  ⟨by decide, by decide, by decide,
    blend_range 0x808000 0x808000 sampleFrame.pixelPrev sampleFrame.pixelNext (by decide)
      (by decide) (by decide) .red⟩

/-- C12 (blend is a convex combination): for 8-bit source bytes and weights
with `icPrev + icNext = 0x1010000`, on every channel the blended intensity
lies between `257 * min(prev, next)` and `257 * max(prev, next)` inclusive. -/
theorem blend_convex (icPrev icNext : Nat) (pixelPrev pixelNext : Pixel)
    (hw : ValidWeights icPrev icNext) (hp : ValidPixel pixelPrev)
    (hn : ValidPixel pixelNext) (c : Chan) :
    ((257 * min (pixelPrev.get c) (pixelNext.get c) : Nat) : Int)
        ≤ blend icPrev icNext (pixelPrev.get c) (pixelNext.get c) ∧
      blend icPrev icNext (pixelPrev.get c) (pixelNext.get c)
        ≤ ((257 * max (pixelPrev.get c) (pixelNext.get c) : Nat) : Int) := by
  have hs := blend_sum_le hw (hp.get_lt c) (hn.get_lt c)
  have hmod : (pixelPrev.get c * icPrev + pixelNext.get c * icNext) % 4294967296
      = pixelPrev.get c * icPrev + pixelNext.get c * icNext := Nat.mod_eq_of_lt (by omega)
  rw [blend_eq, hmod]
  unfold ValidWeights at hw
  have key : ∀ m : Nat, m * icPrev + m * icNext = m * 0x1010000 := by
    intro m
    rw [← Nat.mul_add, hw]
  have lo1 : min (pixelPrev.get c) (pixelNext.get c) * icPrev ≤ pixelPrev.get c * icPrev :=
    Nat.mul_le_mul_right _ (Nat.min_le_left _ _)
  have lo2 : min (pixelPrev.get c) (pixelNext.get c) * icNext ≤ pixelNext.get c * icNext :=
    Nat.mul_le_mul_right _ (Nat.min_le_right _ _)
  have hi1 : pixelPrev.get c * icPrev ≤ max (pixelPrev.get c) (pixelNext.get c) * icPrev :=
    Nat.mul_le_mul_right _ (Nat.le_max_left _ _)
  have hi2 : pixelNext.get c * icNext ≤ max (pixelPrev.get c) (pixelNext.get c) * icNext :=
    Nat.mul_le_mul_right _ (Nat.le_max_right _ _)
  have klo := key (min (pixelPrev.get c) (pixelNext.get c))
  have khi := key (max (pixelPrev.get c) (pixelNext.get c))
  constructor
  · have : 257 * min (pixelPrev.get c) (pixelNext.get c)
        ≤ (pixelPrev.get c * icPrev + pixelNext.get c * icNext) / 65536 := by
      rw [Nat.le_div_iff_mul_le (by decide : 0 < 65536)]
      omega
    exact_mod_cast this
  · have : (pixelPrev.get c * icPrev + pixelNext.get c * icNext) / 65536
        ≤ 257 * max (pixelPrev.get c) (pixelNext.get c) := by
      apply Nat.div_le_of_le_mul
      omega
    exact_mod_cast this

/-- Instance of C12 on the blue channel of the sample call (bytes 255 and 9). -/
theorem blend_convex_witness :
    ValidWeights 0x808000 0x808000 ∧ ValidPixel sampleFrame.pixelPrev ∧
      ValidPixel sampleFrame.pixelNext ∧
      ((257 * min 255 9 : Nat) : Int) ≤ blend 0x808000 0x808000 255 9 ∧
      blend 0x808000 0x808000 255 9 ≤ ((257 * max 255 9 : Nat) : Int) :=
  ⟨by decide, by decide, by decide,
    blend_convex 0x808000 0x808000 sampleFrame.pixelPrev sampleFrame.pixelNext (by decide)
      (by decide) (by decide) .blue⟩

/-! ## Packing of the output word -/

/-- C13 (packing): on tables of 257 unsigned 16-bit entries, for any weights,
source bytes and prior residuals, the call returns the word
`(g8 << 16) | (r8 << 8) | b8` with `r8`, `g8`, `b8` in `[0, 255]`; the word is
below `2 ^ 24`, its bits 16-23 are `g8`, its bits 8-15 are `r8` and its bits
0-7 are `b8`; and `r8`, `g8`, `b8` are the rounded intensities of the source
channels 0, 1, 2 through the tables `r`, `g`, `b`. -/
theorem packing (lutCurrent : LutCurrent) (icPrev icNext : Nat)
    (pixelPrev pixelNext : Pixel) (pResidual : Residual) (ht : ValidLuts lutCurrent) :
    ∃ w res1 l, updatePixel lutCurrent icPrev icNext pixelPrev pixelNext pResidual
        = some (w, res1) ∧
      updatePixelLocals lutCurrent icPrev icNext pixelPrev pixelNext pResidual = some l ∧
      (l.r8 ≤ 255 ∧ l.g8 ≤ 255 ∧ l.b8 ≤ 255) ∧
      w = (l.g8 <<< 16) ||| (l.r8 <<< 8) ||| l.b8 ∧ w < 2 ^ 24 ∧
      ((w >>> 16) &&& 0xFF = l.g8 ∧ (w >>> 8) &&& 0xFF = l.r8 ∧ w &&& 0xFF = l.b8) ∧
      ∃ vR vG vB,
        lutInterpolate lutCurrent.r (toU32 (blend icPrev icNext pixelPrev.c0 pixelNext.c0))
          = some vR ∧
        lutInterpolate lutCurrent.g (toU32 (blend icPrev icNext pixelPrev.c1 pixelNext.c1))
          = some vG ∧
        lutInterpolate lutCurrent.b (toU32 (blend icPrev icNext pixelPrev.c2 pixelNext.c2))
          = some vB ∧
        l.r8 = __USAT ((vR : Int) + pResidual.c0 + 0x80) 16 >>> 8 ∧
        l.g8 = __USAT ((vG : Int) + pResidual.c1 + 0x80) 16 >>> 8 ∧
        l.b8 = __USAT ((vB : Int) + pResidual.c2 + 0x80) 16 >>> 8 := by
  obtain ⟨vR, hR, hR16⟩ := calibrated_some_le ht icPrev icNext pixelPrev pixelNext .red
  obtain ⟨vG, hG, hG16⟩ := calibrated_some_le ht icPrev icNext pixelPrev pixelNext .green
  obtain ⟨vB, hB, hB16⟩ := calibrated_some_le ht icPrev icNext pixelPrev pixelNext .blue
  have hl := updatePixelLocals_of_calibrated pResidual hR hG hB
  rw [toInt_of_lt (by omega : vR < 2147483648), toInt_of_lt (by omega : vG < 2147483648),
    toInt_of_lt (by omega : vB < 2147483648)] at hl
  have lR := round_byte_le ((vR : Int) + pResidual.c0)
  have lG := round_byte_le ((vG : Int) + pResidual.c1)
  have lB := round_byte_le ((vB : Int) + pResidual.c2)
  have hp := @pack_eq (__USAT ((vG : Int) + pResidual.c1 + 0x80) 16 >>> 8)
    (__USAT ((vR : Int) + pResidual.c0 + 0x80) 16 >>> 8)
    (__USAT ((vB : Int) + pResidual.c2 + 0x80) 16 >>> 8) (by omega) (by omega)
  have hu : u32 ((__USAT ((vG : Int) + pResidual.c1 + 0x80) 16 >>> 8) <<< 16 |||
      (__USAT ((vR : Int) + pResidual.c0 + 0x80) 16 >>> 8) <<< 8 |||
      __USAT ((vB : Int) + pResidual.c2 + 0x80) 16 >>> 8)
      = (__USAT ((vG : Int) + pResidual.c1 + 0x80) 16 >>> 8) <<< 16 |||
      (__USAT ((vR : Int) + pResidual.c0 + 0x80) 16 >>> 8) <<< 8 |||
      __USAT ((vB : Int) + pResidual.c2 + 0x80) 16 >>> 8 := by
    rw [hp]
    unfold u32
    omega
  refine ⟨_, _, _, by simp only [updatePixel, hl, Option.bind_eq_bind, Option.some_bind]; rfl,
    hl, ⟨lR, lG, lB⟩, hu, ?_, ?_, vR, vG, vB, hR, hG, hB, rfl, rfl, rfl⟩
  · rw [hu, hp]
    omega
  · rw [hu, hp]
    simp only [and_255, shr_8, shr_16]
    omega

set_option maxRecDepth 100000 in
/-- Instance of C13 on the sample call from the zero residual. -/
theorem packing_witness :
    ValidLuts sampleLuts ∧
      ∃ w res1 l, updatePixel sampleLuts 0x808000 0x808000 sampleFrame.pixelPrev
          sampleFrame.pixelNext Residual.zero = some (w, res1) ∧
        updatePixelLocals sampleLuts 0x808000 0x808000 sampleFrame.pixelPrev
          sampleFrame.pixelNext Residual.zero = some l ∧
        (l.r8 ≤ 255 ∧ l.g8 ≤ 255 ∧ l.b8 ≤ 255) ∧
        w = (l.g8 <<< 16) ||| (l.r8 <<< 8) ||| l.b8 ∧ w < 2 ^ 24 ∧
        ((w >>> 16) &&& 0xFF = l.g8 ∧ (w >>> 8) &&& 0xFF = l.r8 ∧ w &&& 0xFF = l.b8) ∧
        ∃ vR vG vB,
          lutInterpolate sampleLuts.r (toU32 (blend 0x808000 0x808000
            sampleFrame.pixelPrev.c0 sampleFrame.pixelNext.c0)) = some vR ∧
          lutInterpolate sampleLuts.g (toU32 (blend 0x808000 0x808000
            sampleFrame.pixelPrev.c1 sampleFrame.pixelNext.c1)) = some vG ∧
          lutInterpolate sampleLuts.b (toU32 (blend 0x808000 0x808000
            sampleFrame.pixelPrev.c2 sampleFrame.pixelNext.c2)) = some vB ∧
          l.r8 = __USAT ((vR : Int) + Residual.zero.c0 + 0x80) 16 >>> 8 ∧
          l.g8 = __USAT ((vG : Int) + Residual.zero.c1 + 0x80) 16 >>> 8 ∧
          l.b8 = __USAT ((vB : Int) + Residual.zero.c2 + 0x80) 16 >>> 8 :=
  ⟨by decide,
    packing sampleLuts 0x808000 0x808000 sampleFrame.pixelPrev sampleFrame.pixelNext
      Residual.zero (by decide)⟩

/-! ## Independence of the channels -/

/-- One call on valid tables, for any prior residual: the call returns, and
every channel's byte and stored residual are given by that channel's
calibrated intensity and prior residual. -/
theorem updatePixel_channels {t : LutCurrent} (ht : ValidLuts t) (icPrev icNext : Nat)
    (pp pn : Pixel) (res : Residual) :
    ∃ w res1, updatePixel t icPrev icNext pp pn res = some (w, res1) ∧
      ∀ c : Chan, ∃ v, calibrated t icPrev icNext pp pn c = some v ∧
        wordByte c w = __USAT ((v : Int) + res.get c + 0x80) 16 >>> 8 ∧
        res1.get c = toResidual ((v : Int) + res.get c
          - ((__USAT ((v : Int) + res.get c + 0x80) 16 >>> 8 : Nat) : Int) * 257) := by
  obtain ⟨vR, hR, hR16⟩ := calibrated_some_le ht icPrev icNext pp pn .red
  obtain ⟨vG, hG, hG16⟩ := calibrated_some_le ht icPrev icNext pp pn .green
  obtain ⟨vB, hB, hB16⟩ := calibrated_some_le ht icPrev icNext pp pn .blue
  have hl := updatePixelLocals_of_calibrated res hR hG hB
  rw [toInt_of_lt (by omega : vR < 2147483648), toInt_of_lt (by omega : vG < 2147483648),
    toInt_of_lt (by omega : vB < 2147483648)] at hl
  have lR := round_byte_le ((vR : Int) + res.c0)
  have lG := round_byte_le ((vG : Int) + res.c1)
  have lB := round_byte_le ((vB : Int) + res.c2)
  obtain ⟨wR, wG, wB⟩ := wordByte_pack (Nat.lt_succ_of_le lG) (Nat.lt_succ_of_le lR)
    (Nat.lt_succ_of_le lB)
  refine ⟨_, _, by simp only [updatePixel, hl, Option.bind_eq_bind, Option.some_bind]; rfl, ?_⟩
  intro c
  cases c
  · exact ⟨vR, hR, wR, rfl⟩
  · exact ⟨vG, hG, wG, rfl⟩
  · exact ⟨vB, hB, wB, rfl⟩

/-- The calibrated intensity of a channel depends only on the weights and on
that channel's table and source bytes. -/
theorem calibrated_congr {t1 t2 : LutCurrent} {pp1 pn1 pp2 pn2 : Pixel} {c : Chan}
    (icPrev icNext : Nat) (hlut : t1.get c = t2.get c) (hprev : pp1.get c = pp2.get c)
    (hnext : pn1.get c = pn2.get c) :
    calibrated t1 icPrev icNext pp1 pn1 c = calibrated t2 icPrev icNext pp2 pn2 c := by
  unfold calibrated
  rw [hlut, hprev, hnext]

/-- C14 (channel independence and determinism): two calls of `updatePixel` on
valid tables, with the same weights, that agree on the table, the previous and
next source bytes and the prior residual of channel `c`, both return and agree
on the output byte and on the new residual of channel `c`, whatever the
tables, source bytes and residuals of the other two channels are. -/
theorem channel_independence (t1 t2 : LutCurrent) (icPrev icNext : Nat)
    (pp1 pn1 pp2 pn2 : Pixel) (res1 res2 : Residual) (c : Chan)
    (ht1 : ValidLuts t1) (ht2 : ValidLuts t2) (hlut : t1.get c = t2.get c)
    (hprev : pp1.get c = pp2.get c) (hnext : pn1.get c = pn2.get c)
    (hres : res1.get c = res2.get c) :
    ∃ w1 r1 w2 r2, updatePixel t1 icPrev icNext pp1 pn1 res1 = some (w1, r1) ∧
      updatePixel t2 icPrev icNext pp2 pn2 res2 = some (w2, r2) ∧
      wordByte c w1 = wordByte c w2 ∧ r1.get c = r2.get c := by
  obtain ⟨w1, r1, h1, hc1⟩ := updatePixel_channels ht1 icPrev icNext pp1 pn1 res1
  obtain ⟨w2, r2, h2, hc2⟩ := updatePixel_channels ht2 icPrev icNext pp2 pn2 res2
  obtain ⟨v1, hv1, hb1, hr1⟩ := hc1 c
  obtain ⟨v2, hv2, hb2, hr2⟩ := hc2 c
  rw [calibrated_congr icPrev icNext hlut hprev hnext, hv2] at hv1
  cases hv1
  rw [hres] at hb1 hr1
  exact ⟨w1, r1, w2, r2, h1, h2, by rw [hb1, hb2], by rw [hr1, hr2]⟩

set_option maxRecDepth 100000 in
/-- Instance of C14 on the red channel: the two calls differ in the green and
blue tables, source bytes and residuals. -/
theorem channel_independence_witness :
    ValidLuts sampleLuts ∧ ValidLuts { r := rampLut, g := constLut 3, b := midLut } ∧
      ∃ w1 r1 w2 r2,
        updatePixel sampleLuts 0x808000 0x808000 { c0 := 128, c1 := 0, c2 := 255 }
          { c0 := 129, c1 := 3, c2 := 9 } { c0 := -7, c1 := 100, c2 := -300 }
          = some (w1, r1) ∧
        updatePixel { r := rampLut, g := constLut 3, b := midLut } 0x808000 0x808000
          { c0 := 128, c1 := 200, c2 := 1 } { c0 := 129, c1 := 77, c2 := 250 }
          { c0 := -7, c1 := -32768, c2 := 32767 } = some (w2, r2) ∧
        wordByte .red w1 = wordByte .red w2 ∧ r1.get .red = r2.get .red :=
  ⟨by decide, by decide,
    channel_independence sampleLuts { r := rampLut, g := constLut 3, b := midLut }
      0x808000 0x808000 { c0 := 128, c1 := 0, c2 := 255 } { c0 := 129, c1 := 3, c2 := 9 }
      { c0 := 128, c1 := 200, c2 := 1 } { c0 := 129, c1 := 77, c2 := 250 }
      { c0 := -7, c1 := 100, c2 := -300 } { c0 := -7, c1 := -32768, c2 := 32767 } .red
      (by decide) (by decide) (by decide) (by decide) (by decide) (by decide)⟩

/-! ## The rounding precondition and the bound on the residual -/

/-- C15, evaluation of the code where the stated precondition fails: with the
tables `midLut`, a first call from the zero residual with the grey level 128
(calibrated intensity `0x8080`) returns the bytes 129 and leaves the residual
`0x8080 - 129 * 257 = -257`; a second call with the grey level 0 (calibrated
intensity 0) then has the pre-rounding intensity `iR = -257`, below `-128`,
and `iR + 0x80 = -129` is negative, so the saturation clamps at its lower
bound and the byte is 0. Hence `iR ≥ -128` does not hold in every state reached
from the zero residual with valid inputs. -/
theorem rounding_precondition_fails :
    (ValidFrame (greyFrame 128) ∧ ValidFrame (greyFrame 0) ∧
      runPixel Residual.zero [greyFrame 128]
        = some ([0x818181], { c0 := -257, c1 := -257, c2 := -257 }) ∧
      updatePixelLocals (greyFrame 0).lutCurrent (greyFrame 0).icPrev (greyFrame 0).icNext
          (greyFrame 0).pixelPrev (greyFrame 0).pixelNext { c0 := -257, c1 := -257, c2 := -257 }
        = some { iR := -257, iG := -257, iB := -257, r8 := 0, g8 := 0, b8 := 0 } ∧
      __USAT (-257 + 0x80) 16 = 0) ∧
    ¬ (∀ (fs : List Frame) (f : Frame) (ws : List Nat) (res : Residual) (l : Locals),
      (∀ g ∈ fs, ValidFrame g) → ValidFrame f →
      runPixel Residual.zero fs = some (ws, res) →
      updatePixelLocals f.lutCurrent f.icPrev f.icNext f.pixelPrev f.pixelNext res = some l →
      -128 ≤ l.iR ∧ 0 ≤ l.iR + 0x80) := by
  have hv1 : ValidFrame (greyFrame 128) := by
    set_option maxRecDepth 100000 in decide
  have hv0 : ValidFrame (greyFrame 0) := by
    set_option maxRecDepth 100000 in decide
  have hr : runPixel Residual.zero [greyFrame 128]
      = some ([0x818181], { c0 := -257, c1 := -257, c2 := -257 }) := by
    set_option maxRecDepth 100000 in decide
  have hl : updatePixelLocals (greyFrame 0).lutCurrent (greyFrame 0).icPrev
      (greyFrame 0).icNext (greyFrame 0).pixelPrev (greyFrame 0).pixelNext
      { c0 := -257, c1 := -257, c2 := -257 }
      = some { iR := -257, iG := -257, iB := -257, r8 := 0, g8 := 0, b8 := 0 } := by
    set_option maxRecDepth 100000 in decide
  refine ⟨⟨hv1, hv0, hr, hl, by decide⟩, ?_⟩
  intro h
  have h2 := h [greyFrame 128] (greyFrame 0) _ _ _
    (fun g hg => by rw [List.mem_singleton.1 hg]; exact hv1) hv0 hr hl
  revert h2
  decide

/-- C16 (tight residual bound): on valid tables, if the prior residual of a
channel is in `[-383, 127]` (the other two being any signed 16-bit values),
the call returns and the new residual of that channel is in `[-383, 127]`;
after any sequence of calls with valid inputs from the zero residual every
channel of the slot is in `[-383, 127]`; and both ends are attained from the
zero residual: a calibrated intensity `0xFE80` gives the bytes 255 and the
residual `-383`, a calibrated intensity 127 gives the bytes 0 and the
residual 127. -/
theorem tight_residual_bound (lutCurrent : LutCurrent) (icPrev icNext : Nat)
    (pixelPrev pixelNext : Pixel) (pResidual : Residual) (c : Chan) (fs : List Frame)
    (ht : ValidLuts lutCurrent) (hres : ValidResidual pResidual)
    (hc : -383 ≤ pResidual.get c ∧ pResidual.get c ≤ 127) (hfs : ∀ g ∈ fs, ValidFrame g) :
    (∃ w res1, updatePixel lutCurrent icPrev icNext pixelPrev pixelNext pResidual
        = some (w, res1) ∧ -383 ≤ res1.get c ∧ res1.get c ≤ 127) ∧
    (∃ ws res, runPixel Residual.zero fs = some (ws, res) ∧
      ∀ d : Chan, -383 ≤ res.get d ∧ res.get d ≤ 127) ∧
    ((∀ d : Chan, (constFrame 0xFE80).calibrated d = some 0xFE80) ∧
      (constFrame 0xFE80).update Residual.zero
        = some (0xFFFFFF, { c0 := -383, c1 := -383, c2 := -383 }) ∧
      (∀ d : Chan, (constFrame 127).calibrated d = some 127) ∧
      (constFrame 127).update Residual.zero
        = some (0, { c0 := 127, c1 := 127, c2 := 127 })) := by
  refine ⟨?_, ?_, ?_⟩
  · obtain ⟨w, res1, hw, hch⟩ := updatePixel_step ht icPrev icNext pixelPrev pixelNext hres
    obtain ⟨v, -, hv16, hb, hr⟩ := hch c
    have h := round_error_tight hv16 hc.1 hc.2
    rw [hb] at hr
    refine ⟨w, res1, hw, ?_⟩
    rw [hr]
    exact h
  · obtain ⟨ws, res, hrun, ht2, -⟩ := runPixel_tight fs hfs Residual.zero tightResidual_zero
    exact ⟨ws, res, hrun, ht2⟩
  · set_option maxRecDepth 100000 in
    refine ⟨fun d => ?_, by decide, fun d => ?_, by decide⟩
    · cases d <;> decide
    · cases d <;> decide

set_option maxRecDepth 100000 in
/-- Instance of C16: the green channel of the sample call from the residual
`-383`, and the two-call sequence `sampleFrame`, `fullFrame`. -/
theorem tight_residual_bound_witness :
    ValidLuts sampleLuts ∧ ValidResidual { c0 := 5, c1 := -383, c2 := -32768 } ∧
      (-383 ≤ Residual.get { c0 := 5, c1 := -383, c2 := -32768 } .green ∧
        Residual.get { c0 := 5, c1 := -383, c2 := -32768 } .green ≤ 127) ∧
      (∀ g ∈ [sampleFrame, fullFrame], ValidFrame g) ∧
      (∃ w res1, updatePixel sampleLuts 0x808000 0x808000 sampleFrame.pixelPrev
          sampleFrame.pixelNext { c0 := 5, c1 := -383, c2 := -32768 } = some (w, res1) ∧
        -383 ≤ res1.get .green ∧ res1.get .green ≤ 127) ∧
      (∃ ws res, runPixel Residual.zero [sampleFrame, fullFrame] = some (ws, res) ∧
        ∀ d : Chan, -383 ≤ res.get d ∧ res.get d ≤ 127) :=
  ⟨by decide, by decide, by decide, by decide,
    (tight_residual_bound sampleLuts 0x808000 0x808000 sampleFrame.pixelPrev
      sampleFrame.pixelNext { c0 := 5, c1 := -383, c2 := -32768 } .green
      [sampleFrame, fullFrame] (by decide) (by decide) (by decide) (by decide)).1,
    (tight_residual_bound sampleLuts 0x808000 0x808000 sampleFrame.pixelPrev
      sampleFrame.pixelNext { c0 := 5, c1 := -383, c2 := -32768 } .green
      [sampleFrame, fullFrame] (by decide) (by decide) (by decide) (by decide)).2.1⟩

/-! ## Shape of the interpolation: monotonicity, bounds, knots -/

/-- Value of `lutInterpolate` on a valid table, with the entries read by
`List.getD`. -/
theorem lutInterpolate_getD {lut : List Nat} (h : ValidLut lut) {arg : Nat}
    (harg : arg ≤ 0xFFFF) :
    lutInterpolate lut arg
      = some ((lut.getD (arg / 256) 0 * (256 - arg % 256)
          + lut.getD (arg / 256 + 1) 0 * (arg % 256)) / 256) := by
  obtain ⟨lo, hi, hlo, hhi, -, -, hv⟩ := lutInterpolate_valid h harg
  rw [shr_8] at hlo hhi
  rw [hv, List.getD_eq_getElem?_getD, List.getD_eq_getElem?_getD, hlo, hhi]
  rfl

/-- Inside one segment with `lo ≤ hi` the interpolated value does not decrease
when the weight of `hi` grows by one. -/
theorem interp_step_le {lo hi a : Nat} (h : lo ≤ hi) (ha : a < 255) :
    (lo * (256 - a) + hi * a) / 256 ≤ (lo * (256 - (a + 1)) + hi * (a + 1)) / 256 := by
  apply Nat.div_le_div_right
  have e1 : lo * (256 - a) = lo * (256 - (a + 1)) + lo := by
    rw [show 256 - a = (256 - (a + 1)) + 1 by omega, Nat.mul_succ]
  have e2 : hi * (a + 1) = hi * a + hi := Nat.mul_succ hi a
  omega

/-- The interpolated value lies between the two entries. -/
theorem interp_between {lo hi a : Nat} (ha : a < 256) :
    min lo hi ≤ (lo * (256 - a) + hi * a) / 256 ∧
      (lo * (256 - a) + hi * a) / 256 ≤ max lo hi := by
  have l1 : min lo hi * (256 - a) ≤ lo * (256 - a) :=
    Nat.mul_le_mul_right _ (Nat.min_le_left _ _)
  have l2 : min lo hi * a ≤ hi * a := Nat.mul_le_mul_right _ (Nat.min_le_right _ _)
  have u1 : lo * (256 - a) ≤ max lo hi * (256 - a) :=
    Nat.mul_le_mul_right _ (Nat.le_max_left _ _)
  have u2 : hi * a ≤ max lo hi * a := Nat.mul_le_mul_right _ (Nat.le_max_right _ _)
  have k : ∀ m : Nat, m * (256 - a) + m * a = m * 256 := by
    intro m
    rw [← Nat.mul_add, Nat.sub_add_cancel (Nat.le_of_lt ha)]
  have k1 := k (min lo hi)
  have k2 := k (max lo hi)
  constructor
  · rw [Nat.le_div_iff_mul_le (by decide : 0 < 256)]
    omega
  · apply Nat.div_le_of_le_mul
    omega

/-- On a non-decreasing table the interpolated value does not decrease from
`a` to `a + 1`, inside a segment and across a segment boundary. -/
theorem interp_succ_le {lut : List Nat} (hm : MonotoneLut lut) {a : Nat} (ha : a < 0xFFFF) :
    (lut.getD (a / 256) 0 * (256 - a % 256) + lut.getD (a / 256 + 1) 0 * (a % 256)) / 256
      ≤ (lut.getD ((a + 1) / 256) 0 * (256 - (a + 1) % 256)
          + lut.getD ((a + 1) / 256 + 1) 0 * ((a + 1) % 256)) / 256 := by
  have hi : a / 256 < 256 := by omega
  have hmono := hm (a / 256) hi
  by_cases hc : a % 256 < 255
  · have e1 : (a + 1) / 256 = a / 256 := by omega
    have e2 : (a + 1) % 256 = a % 256 + 1 := by omega
    rw [e1, e2]
    exact interp_step_le hmono hc
  · have e1 : (a + 1) / 256 = a / 256 + 1 := by omega
    have e2 : (a + 1) % 256 = 0 := by omega
    have e3 : a % 256 = 255 := by omega
    rw [e1, e2, e3]
    simp only [Nat.mul_zero, Nat.add_zero, Nat.sub_zero]
    omega

/-- C17 (monotonicity of the interpolator): on a table of 257 unsigned 16-bit
entries with `table[i] ≤ table[i + 1]` for all `i` in `0..255`, for all
`a ≤ b ≤ 0xFFFF` both calls return and
`lutInterpolate(table, a) ≤ lutInterpolate(table, b)`; `a` and `b` may lie in
different segments. -/
theorem lutInterpolate_monotone (lut : List Nat) (a b : Nat) (h : ValidLut lut)
    (hm : MonotoneLut lut) (hab : a ≤ b) (hb : b ≤ 0xFFFF) :
    ∃ x y, lutInterpolate lut a = some x ∧ lutInterpolate lut b = some y ∧ x ≤ y := by
  refine ⟨_, _, lutInterpolate_getD h (le_trans hab hb), lutInterpolate_getD h hb, ?_⟩
  revert hb
  induction b, hab using Nat.le_induction with
  | base => exact fun _ => le_refl _
  | succ n _ ih =>
    intro hn
    exact le_trans (ih (by omega)) (interp_succ_le hm (by omega))

set_option maxRecDepth 100000 in
/-- Instance of C17 on the ramp table, from the end of segment 0x12 to the
start of segment 0x13. -/
theorem lutInterpolate_monotone_witness :
    ValidLut rampLut ∧ MonotoneLut rampLut ∧ 0x12FF ≤ 0x1300 ∧ 0x1300 ≤ 0xFFFF ∧
      ∃ x y, lutInterpolate rampLut 0x12FF = some x ∧ lutInterpolate rampLut 0x1300 = some y ∧
        x ≤ y :=
  ⟨by decide, by decide, by decide, by decide,
    lutInterpolate_monotone rampLut 0x12FF 0x1300 (by decide) (by decide) (by decide)
      (by decide)⟩

/-- C18 (interpolation stays between the neighbouring entries): on a table of
257 unsigned 16-bit entries and for `arg` in `[0, 0xFFFF]`, with
`index = arg >> 8`, the result of `lutInterpolate` is at least
`min(table[index], table[index+1])` and at most
`max(table[index], table[index+1])`. -/
theorem lutInterpolate_between (lut : List Nat) (arg : Nat) (h : ValidLut lut)
    (harg : arg ≤ 0xFFFF) :
    ∃ lo hi v, lut[arg >>> 8]? = some lo ∧ lut[arg >>> 8 + 1]? = some hi ∧
      lutInterpolate lut arg = some v ∧ min lo hi ≤ v ∧ v ≤ max lo hi := by
  obtain ⟨lo, hi, hlo, hhi, -, -, hv⟩ := lutInterpolate_valid h harg
  have hb := @interp_between lo hi (arg % 256) (Nat.mod_lt arg (by decide : 0 < 256))
  exact ⟨lo, hi, _, hlo, hhi, hv, hb.1, hb.2⟩

set_option maxRecDepth 100000 in
/-- Instance of C18 on the ramp table at `arg = 0x1234`. -/
theorem lutInterpolate_between_witness :
    ValidLut rampLut ∧ 0x1234 ≤ 0xFFFF ∧
      ∃ lo hi v, rampLut[0x1234 >>> 8]? = some lo ∧ rampLut[0x1234 >>> 8 + 1]? = some hi ∧
        lutInterpolate rampLut 0x1234 = some v ∧ min lo hi ≤ v ∧ v ≤ max lo hi :=
  ⟨by decide, by decide, lutInterpolate_between rampLut 0x1234 (by decide) (by decide)⟩

/-- C19 (exactness at the knots): on a table of 257 unsigned 16-bit entries,
for every `i` in `[0, 255]`, `lutInterpolate(table, 256 * i) = table[i]`; and
for `arg` in `[0xFF00, 0xFFFF]` the result is
`(table[255] * (256 - alpha) + table[256] * alpha) >> 8` with
`alpha = arg & 0xFF ≤ 255`, so the weight of `table[256]` is at most `255/256`
and that of `table[255]` at least `1/256`; in particular the result is below
`table[256]` whenever `table[255] < table[256]`. -/
theorem lutInterpolate_knots (lut : List Nat) (i arg : Nat) (h : ValidLut lut)
    (hi : i ≤ 255) (harg1 : 0xFF00 ≤ arg) (harg2 : arg ≤ 0xFFFF) :
    (∃ v, lut[i]? = some v ∧ lutInterpolate lut (256 * i) = some v) ∧
    (∃ a b, lut[255]? = some a ∧ lut[256]? = some b ∧
      lutInterpolate lut arg
        = some ((a * (256 - (arg &&& 0xFF)) + b * (arg &&& 0xFF)) / 256) ∧
      arg &&& 0xFF ≤ 255 ∧ 1 ≤ 256 - (arg &&& 0xFF) ∧
      (a < b → (a * (256 - (arg &&& 0xFF)) + b * (arg &&& 0xFF)) / 256 < b)) := by
  constructor
  · obtain ⟨v, hv, hv16⟩ := h.get_lo (by omega : i ≤ 256)
    obtain ⟨u, hu, hu16⟩ := h.get_lo (by omega : i + 1 ≤ 256)
    have e : (256 * i) >>> 8 = i := by rw [shr_8]; omega
    have hlo : lut[(256 * i) >>> 8]? = some v := by rw [e]; exact hv
    have hhi : lut[(256 * i) >>> 8 + 1]? = some u := by rw [e]; exact hu
    refine ⟨v, hv, ?_⟩
    rw [lutInterpolate_of_entries hlo hhi hv16 hu16]
    have e2 : 256 * i % 256 = 0 := by omega
    rw [e2]
    simp only [Nat.mul_zero, Nat.add_zero, Nat.sub_zero]
    rw [Nat.mul_div_cancel v (by decide : 0 < 256)]
  · obtain ⟨a, ha, ha16⟩ := h.get_lo (by omega : 255 ≤ 256)
    obtain ⟨b, hb, hb16⟩ := h.get_lo (by omega : 256 ≤ 256)
    have e : arg >>> 8 = 255 := by rw [shr_8]; omega
    have hlo : lut[arg >>> 8]? = some a := by rw [e]; exact ha
    have hhi : lut[arg >>> 8 + 1]? = some b := by rw [e]; exact hb
    have hα : arg % 256 < 256 := Nat.mod_lt arg (by decide : 0 < 256)
    refine ⟨a, b, ha, hb, ?_, ?_, ?_, ?_⟩
    · rw [lutInterpolate_of_entries hlo hhi ha16 hb16, and_255]
    · rw [and_255]; omega
    · rw [and_255]; omega
    · intro hab
      rw [and_255]
      have u1 : (a + 1) * (256 - arg % 256) ≤ b * (256 - arg % 256) :=
        Nat.mul_le_mul_right _ hab
      have u2 : (a + 1) * (256 - arg % 256) = a * (256 - arg % 256) + (256 - arg % 256) :=
        Nat.succ_mul a _
      have k : b * (256 - arg % 256) + b * (arg % 256) = b * 256 := by
        rw [← Nat.mul_add, Nat.sub_add_cancel (Nat.le_of_lt hα)]
      omega

set_option maxRecDepth 100000 in
/-- Instance of C19 on the ramp table: the knot 77 and `arg = 0xFFFF`. -/
theorem lutInterpolate_knots_witness :
    ValidLut rampLut ∧ 77 ≤ 255 ∧ 0xFF00 ≤ 0xFFFF ∧ 0xFFFF ≤ 0xFFFF ∧
      (∃ v, rampLut[77]? = some v ∧ lutInterpolate rampLut (256 * 77) = some v) ∧
      (∃ a b, rampLut[255]? = some a ∧ rampLut[256]? = some b ∧
        lutInterpolate rampLut 0xFFFF
          = some ((a * (256 - (0xFFFF &&& 0xFF)) + b * (0xFFFF &&& 0xFF)) / 256) ∧
        0xFFFF &&& 0xFF ≤ 255 ∧ 1 ≤ 256 - (0xFFFF &&& 0xFF) ∧
        (a < b → (a * (256 - (0xFFFF &&& 0xFF)) + b * (0xFFFF &&& 0xFF)) / 256 < b)) :=
  ⟨by decide, by decide, by decide, by decide,
    lutInterpolate_knots rampLut 77 0xFFFF (by decide) (by decide) (by decide) (by decide)⟩

end Fadecandy
